import Mathlib

/-!
Verification of the qrgo QR-code encoder (qrgo.go) against its
natural-language specification.  Bit strings ("0"/"1" decimal-character
strings in the Go source) are embedded as `List Bool` (`true` = '1'),
byte arrays as `List Nat`, and the input string as `List Char`.
-/

namespace QRGo

set_option maxRecDepth 8000

/-- Number of supported QR versions (`versions` constant in qrgo.go). -/
def versions : Nat := 40

/-- Division-by-two loop of the binary formatter, with a structural fuel
argument that dominates the iteration count (the value halves every step,
so fuel = n suffices; the fuel-exhausted branch is unreachable). -/
def fmtBinAux : Nat → Nat → List Bool
  | _, 0 => [false]
  | _, 1 => [true]
  | 0, _ => []
  | fuel + 1, n => fmtBinAux fuel (n / 2) ++ [decide (n % 2 = 1)]

/-- Big-endian binary representation of a natural number without leading
zeros, as produced by strconv.FormatInt(n, 2); the representation of 0 is
the single bit "0". -/
def fmtBin (n : Nat) : List Bool := fmtBinAux n n

/-- Value of a big-endian binary bit string (used by strconv.ParseInt(s, 2, 64)
inside encodingToByteArray). -/
def parseBin (s : List Bool) : Nat :=
  s.foldl (fun a b => 2 * a + (if b then 1 else 0)) 0

/-- strconv.ParseInt(s, 10, 64) as used by stringToBinary: the decimal value
of an all-digit string; on a malformed string the Go call errs and the code
ignores the error, leaving the value 0.  (int64 overflow cannot occur at the
call sites, which parse at most three digits.) -/
def parseDec (s : List Char) : Nat :=
  if s ≠ [] ∧ ∀ c ∈ s, c.isDigit then
    s.foldl (fun a c => a * 10 + (c.toNat - 48)) 0
  else 0

/-- padLeft from qrgo.go: prepend zero bits until the length reaches `final`
(no change when the string is already at least that long; Nat subtraction
makes the replicate count 0 in that case, matching the Go guard). -/
def padLeft (binary : List Bool) (final : Nat) : List Bool :=
  List.replicate (final - binary.length) false ++ binary

/-- padRight from qrgo.go: append zero bits until the length reaches `final`. -/
def padRight (binary : List Bool) (final : Nat) : List Bool :=
  binary ++ List.replicate (final - binary.length) false

/-- stringToBinary from qrgo.go: empty input gives the empty string, otherwise
the minimal binary representation of the decimal value of the input. -/
def stringToBinary (number : List Char) : List Bool :=
  if number.length = 0 then [] else fmtBin (parseDec number)

/-- encodingToByteArray from qrgo.go: read the bit string eight bits at a
time, most significant first.  (At every call site the length is a multiple
of eight; the model keeps only the full eight-bit chunks, which is the size
the Go code allocates.) -/
def encodingToByteArray : List Bool → List Nat
  | b1 :: b2 :: b3 :: b4 :: b5 :: b6 :: b7 :: b8 :: rest =>
      parseBin [b1, b2, b3, b4, b5, b6, b7, b8] :: encodingToByteArray rest
  | _ => []

/-- byteArrayToEncoding from qrgo.go: each byte becomes its 8-bit binary
representation, left-padded with zeros. -/
def byteArrayToEncoding (array : List Nat) : List Bool :=
  (array.map (fun b => padLeft (fmtBin b) 8)).flatten

/-- maxCharsNumeric capacity table (40 entries). -/
def maxCharsNumeric : List Nat :=
  [41, 77, 127, 187, 255, 322, 370, 461, 552, 652, 772, 883, 1022,
   1101, 1250, 1408, 1548, 1725, 1903, 2061, 2232, 2409, 2620, 2812,
   3057, 3283, 3517, 3669, 3909, 4158, 4417, 4686, 4965, 5253, 5529,
   5836, 6153, 6479, 6743, 7089]

/-- maxCharsAlpha capacity table (40 entries). -/
def maxCharsAlpha : List Nat :=
  [25, 47, 77, 114, 154, 195, 224, 279, 335, 395, 468, 535, 619,
   667, 758, 854, 938, 1046, 1153, 1249, 1352, 1460, 1588, 1704,
   1853, 1990, 2132, 2223, 2369, 2520, 2677, 2840, 3009, 3183,
   3351, 3537, 3729, 3927, 4087, 4296]

/-- maxCharsBytes capacity table (40 entries; entry 21 is the out-of-order
value 779 present in the source). -/
def maxCharsBytes : List Nat :=
  [17, 32, 53, 78, 106, 134, 154, 192, 230, 271, 321, 367, 425, 458,
   520, 586, 644, 718, 792, 858, 929, 779, 1091, 1171, 1273, 1367,
   1465, 1528, 1628, 1732, 1840, 1952, 2068, 2188, 2303, 2431, 2563,
   2699, 2809, 2953]

/-- binarySearch from qrgo.go, written as the loop on (low, high).  The Go
loop runs while low != high; it starts at (0, 40) and every iteration keeps
low ≤ high, so the running condition is equivalent to low < high.  The
structural fuel argument dominates the iteration count: high - low shrinks
every step, so starting fuel 40 suffices and the fuel-exhausted branch is
unreachable. -/
def binarySearchLoop (array : List Nat) (value : Nat) : Nat → Nat → Nat → Nat
  | 0, low, _ => low
  | fuel + 1, low, high =>
    if low < high then
      let mid := (low + high) / 2
      if array.getD mid 0 < value then binarySearchLoop array value fuel (mid + 1) high
      else binarySearchLoop array value fuel low mid
    else low

/-- binarySearch from qrgo.go: search the whole 40-entry table. -/
def binarySearch (array : List Nat) (value : Nat) : Nat :=
  binarySearchLoop array value versions 0 versions

/-- Index of the first entry that is at least `v` (the length of the list
when no entry qualifies).  Specification-side description of what the
binary search is claimed to compute. -/
def lowerBound (v : Nat) : List Nat → Nat
  | [] => 0
  | a :: rest => if v ≤ a then 0 else lowerBound v rest + 1

/-- Mode constant numeric = 1. -/
def numeric : Nat := 1

/-- Mode constant alpha = 2. -/
def alpha : Nat := 2

/-- Mode constant byteMode = 4. -/
def byteMode : Nat := 4

/-- Membership in the character class [0-9A-Z /.:%+$\-*] of regexAlpha. -/
def isAlphaQR (c : Char) : Bool :=
  c.isDigit || (65 ≤ c.toNat && c.toNat ≤ 90) ||
    (c = ' ' || c = '/' || c = '.' || c = ':' || c = '%' ||
     c = '+' || c = '$' || c = '-' || c = '*')

/-- Semantics of Go regexp.MatchString for the anchored patterns
"^.[cls]*$" used by qrgo (regexNumeric and regexAlpha): the string must be
nonempty, the first character may be anything except a newline (the dot
metacharacter), and every later character must be in the class. -/
def matchDotStar (cls : Char → Bool) : List Char → Bool
  | [] => false
  | c :: rest => c != '\n' && rest.all cls

/-- QR.mode from qrgo.go: try regexNumeric = "^.[0-9]*$" first, then
regexAlpha = "^.[0-9A-Z /.:%+$\-*]*$", else byte mode. -/
def mode (data : List Char) : Nat :=
  if matchDotStar Char.isDigit data then numeric
  else if matchDotStar isAlphaQR data then alpha
  else byteMode

/-- QR.version from qrgo.go: binary search on the capacity table of the
detected mode, plus one. -/
def versionOf (mode length : Nat) : Nat :=
  if mode = numeric then binarySearch maxCharsNumeric length + 1
  else if mode = alpha then binarySearch maxCharsAlpha length + 1
  else binarySearch maxCharsBytes length + 1

/-- Mode indicator "0001" (indNumeric). -/
def indNumeric : List Bool := [false, false, false, true]

/-- Mode indicator "0010" (indAlpha). -/
def indAlpha : List Bool := [false, false, true, false]

/-- Mode indicator "0100" (indBytes). -/
def indBytes : List Bool := [false, true, false, false]

/-- indCount from qrgo.go: the character-count indicator, the binary length
left-padded to a width depending on mode and version class. -/
def indCount (length mode version : Nat) : List Bool :=
  let count := fmtBin length
  if 1 ≤ version ∧ version ≤ 9 then
    if mode = numeric then padLeft count 10
    else if mode = alpha then padLeft count 9
    else padLeft count 8
  else if 10 ≤ version ∧ version ≤ 26 then
    if mode = numeric then padLeft count 12
    else if mode = alpha then padLeft count 11
    else padLeft count 16
  else
    if mode = numeric then padLeft count 14
    else if mode = alpha then padLeft count 13
    else padLeft count 16

/-- encNumeric from qrgo.go: while at least three digits remain, emit
stringToBinary of the next three characters; finally emit stringToBinary of
the remaining zero, one or two characters. -/
def encNumeric : List Char → List Bool
  | c1 :: c2 :: c3 :: rest => stringToBinary [c1, c2, c3] ++ encNumeric rest
  | rest => stringToBinary rest

/-- The alphaTable map from qrgo.go, with the Go zero value 0 for characters
outside the table. -/
def alphaTable (c : Char) : Nat :=
  if c.isDigit then c.toNat - 48
  else if 65 ≤ c.toNat ∧ c.toNat ≤ 90 then c.toNat - 55
  else if c = ' ' then 36
  else if c = '$' then 37
  else if c = '%' then 38
  else if c = '*' then 39
  else if c = '+' then 40
  else if c = '-' then 41
  else if c = '.' then 42
  else if c = '/' then 43
  else if c = ':' then 44
  else 0

/-- encAlpha from qrgo.go: pairs of characters become 11 bits of
45·alphaTable(c1) + alphaTable(c2); a hanging character becomes 6 bits. -/
def encAlpha : List Char → List Bool
  | c1 :: c2 :: rest =>
      padLeft (fmtBin (alphaTable c1 * 45 + alphaTable c2)) 11 ++ encAlpha rest
  | [c] => padLeft (fmtBin (alphaTable c)) 6
  | [] => []

/-- encBytes from qrgo.go: every character becomes the 8-bit binary of its
code point.  (The Go loop ranges over runes; all inputs considered in the
theorems below are single-byte characters, for which byte and rune iteration
coincide.) -/
def encBytes (data : List Char) : List Bool :=
  (data.map (fun c => padLeft (fmtBin c.toNat) 8)).flatten

/-- One row of the blockInfo table:
total data codewords, error-correction words per block, blocks and words per
block of group 1, blocks and words per block of group 2, remainder bits. -/
structure BlockInfo where
  total : Nat
  errors : Nat
  blocks1 : Nat
  words1 : Nat
  blocks2 : Nat
  words2 : Nat
  remainder : Nat
deriving DecidableEq, Repr

/-- The blockInfo map from qrgo.go.  It only has entries for versions 1-14;
every other version misses. -/
def blockInfoTable : Nat → Option BlockInfo
  | 1 => some ⟨19, 7, 1, 19, 0, 0, 0⟩
  | 2 => some ⟨34, 10, 1, 34, 0, 0, 7⟩
  | 3 => some ⟨55, 15, 1, 55, 0, 0, 7⟩
  | 4 => some ⟨80, 20, 1, 80, 0, 0, 7⟩
  | 5 => some ⟨108, 26, 1, 108, 0, 0, 7⟩
  | 6 => some ⟨136, 18, 2, 68, 0, 0, 7⟩
  | 7 => some ⟨156, 20, 2, 78, 0, 0, 0⟩
  | 8 => some ⟨194, 24, 2, 97, 0, 0, 0⟩
  | 9 => some ⟨232, 30, 2, 116, 0, 0, 0⟩
  | 10 => some ⟨274, 18, 2, 68, 2, 69, 0⟩
  | 11 => some ⟨324, 20, 4, 81, 0, 0, 0⟩
  | 12 => some ⟨370, 24, 2, 92, 2, 93, 0⟩
  | 13 => some ⟨428, 26, 4, 107, 0, 0, 0⟩
  | 14 => some ⟨461, 30, 3, 115, 1, 116, 0⟩
  | _ => none

/-- Go map-access semantics for blockInfo: a missing version yields the zero
value of [7]int, i.e. all-zero block data. -/
def blockInfoGo (v : Nat) : BlockInfo :=
  (blockInfoTable v).getD ⟨0, 0, 0, 0, 0, 0, 0⟩

/-- terminatorPads from qrgo.go: the pad codewords "11101100" (0xEC) and
"00010001" (0x11). -/
def terminatorPads : List (List Bool) :=
  [[true, true, true, false, true, true, false, false],
   [false, false, false, true, false, false, false, true]]

/-- terminator from qrgo.go.  When the bit length already equals 8·total the
string is converted as is (the Go test is (blocks*8)-length == 0 over int,
i.e. an equality test); otherwise 8 - (length mod 8) zero bits are appended
(a full zero byte when the length is already a multiple of eight), then
blocks - length/8 alternating pad codewords (none when that int difference
is negative, which Nat subtraction also gives). -/
def terminator (encoding : List Bool) (version : Nat) : List Nat :=
  let length := encoding.length
  let blocks := (blockInfoGo version).total
  if blocks * 8 = length then encodingToByteArray encoding
  else
    let rest := 8 - length % 8
    let padding := padRight encoding (length + rest)
    let numPads := blocks - padding.length / 8
    encodingToByteArray
      (padding ++ ((List.range numPads).map
        (fun i => terminatorPads.getD (i % 2) [])).flatten)

/-- The header-plus-payload bit string assembled by QR.encoding in qrgo.go
(the argument it passes to terminator). -/
def assemble (data : List Char) : List Bool :=
  let length := data.length
  let m := mode data
  let v := versionOf m length
  if m = numeric then indNumeric ++ indCount length m v ++ encNumeric data
  else if m = alpha then indAlpha ++ indCount length m v ++ encAlpha data
  else indBytes ++ indCount length m v ++ encBytes data

/-- QR.encoding from qrgo.go: the assembled bit string passed through
terminator, as a byte array. -/
def encodingOf (data : List Char) : List Nat :=
  terminator (assemble data) (versionOf (mode data) data.length)

/-- The capacity table consulted by QR.version for each mode (same dispatch
as versionOf). -/
def capTable (m : Nat) : List Nat :=
  if m = numeric then maxCharsNumeric
  else if m = alpha then maxCharsAlpha
  else maxCharsBytes

/-- The group decomposition performed by the encNumeric loop: full groups of
three digits, followed by the nonempty leftover of one or two digits, if
any. -/
def numericGroups : List Char → List (List Char)
  | c1 :: c2 :: c3 :: rest => [c1, c2, c3] :: numericGroups rest
  | [] => []
  | rest => [rest]

/-- The terminator-and-padding procedure exactly as claim C2 and the
specification state it: append min(4, 8·B - L) zero terminator bits, then
zero bits up to the next multiple of eight, then alternating pad codewords
0xEC, 0x11 until exactly B codewords are present. -/
def claimTerminator (encoding : List Bool) (version : Nat) : List Nat :=
  let blocks := (blockInfoGo version).total
  let t := min 4 (8 * blocks - encoding.length)
  let s1 := encoding ++ List.replicate t false
  let s2 := padRight s1 (((s1.length + 7) / 8) * 8)
  let numPads := blocks - s2.length / 8
  encodingToByteArray
    (s2 ++ ((List.range numPads).map (fun i => terminatorPads.getD (i % 2) [])).flatten)

/-- The alignmentPatterns map from qrgo.go.  Only versions 2-12 have
entries. -/
def alignmentPatternsTable : Nat → Option (List Nat)
  | 2 => some [18, 18]
  | 3 => some [22, 22]
  | 4 => some [26, 26]
  | 5 => some [30, 30]
  | 6 => some [34, 34]
  | 7 => some [6, 22, 22, 6, 22, 22, 22, 38, 38, 22, 38, 38]
  | 8 => some [6, 24, 24, 6, 24, 24, 24, 42, 42, 24, 42, 42]
  | 9 => some [6, 26, 26, 6, 26, 26, 26, 46, 46, 26, 46, 46]
  | 10 => some [6, 28, 28, 6, 28, 28, 28, 50, 50, 28, 50, 50]
  | 11 => some [6, 30, 30, 6, 30, 30, 30, 54, 54, 30, 54, 54]
  | 12 => some [6, 32, 32, 6, 32, 32, 32, 58, 58, 32, 58, 58]
  | _ => none

/-- Go map-access semantics for alignmentPatterns: a missing version yields
the zero value, a nil (empty) slice. -/
def alignmentPatternsGo (v : Nat) : List Nat :=
  (alignmentPatternsTable v).getD []

/-- The eight formatInformationStrings from qrgo.go, 15 bits each
(true = '1'). -/
def formatInformationStrings : List (List Bool) :=
  [[true, true, true, false, true, true, true, true, true, false, false, false, true, false, false],
   [true, true, true, false, false, true, false, true, true, true, true, false, false, true, true],
   [true, true, true, true, true, false, true, true, false, true, false, true, false, true, false],
   [true, true, true, true, false, false, false, true, false, false, true, true, true, false, true],
   [true, true, false, false, true, true, false, false, false, true, false, true, true, true, true],
   [true, true, false, false, false, true, true, false, false, false, true, true, false, false, false],
   [true, true, false, true, true, false, false, false, true, false, false, false, false, false, true],
   [true, true, false, true, false, false, true, false, true, true, true, false, true, true, false]]

/-- The six versionInformationStrings from qrgo.go (for versions 7-12 only;
18 bits each). -/
def versionInformationStrings : List (List Bool) :=
  [[false, false, false, true, true, true, true, true, false, false, true, false, false, true, false, true, false, false],
   [false, false, true, false, false, false, false, true, false, true, true, false, true, true, true, true, false, false],
   [false, false, true, false, false, true, true, false, true, false, true, false, false, true, true, false, false, true],
   [false, false, true, false, true, false, false, true, false, false, true, true, false, true, false, false, true, true],
   [false, false, true, false, true, true, true, false, true, true, true, true, true, true, false, true, true, false],
   [false, false, true, true, false, false, false, true, true, true, false, true, true, false, false, false, true, false]]

/-- A module of the canvas: color (0 light, 1 dark) and whether the cell is
still available for data bits.  Mirrors type Cell in qrgo.go. -/
structure Cell where
  color : Nat
  data : Bool
deriving DecidableEq, Repr

/-- Read a canvas cell (in-bounds at every reachable access of the source;
out-of-bounds reads, which would panic in Go, give a default). -/
def getCell (canvas : List (List Cell)) (r c : Nat) : Cell :=
  (canvas.getD r []).getD c ⟨0, true⟩

/-- Mutate a canvas cell in place, as the Go pointer writes do (out-of-bounds
writes, which would panic in Go and are unreachable, are no-ops). -/
def modifyCell (canvas : List (List Cell)) (r c : Nat) (f : Cell → Cell) :
    List (List Cell) :=
  canvas.set r ((canvas.getD r []).set c (f (getCell canvas r c)))

/-- newCanvas from qrgo.go: a modules × modules grid of light data cells. -/
def newCanvas (modules : Nat) : List (List Cell) :=
  List.replicate modules (List.replicate modules ⟨0, true⟩)

/-- drawPattern from qrgo.go: a size × size square, dark border, light ring,
dark core (finder patterns for size 7, alignment patterns for size 5);
every touched cell loses its data flag. -/
def drawPattern (canvas : List (List Cell)) (row col size : Nat) :
    List (List Cell) :=
  let inner := size - 2
  (List.range size).foldl (fun cv i =>
    (List.range size).foldl (fun cv2 j =>
      let r := row + i
      let c := col + j
      let light :=
        (col + 1 ≤ c ∧ c ≤ col + inner ∧ r = row + 1) ∨
        (col + 1 ≤ c ∧ c ≤ col + inner ∧ r = row + inner) ∨
        (row + 1 ≤ r ∧ r ≤ row + inner ∧ c = col + 1) ∨
        (row + 1 ≤ r ∧ r ≤ row + inner ∧ c = col + inner)
      modifyCell cv2 r c
        (fun cell => { cell with color := if light then 0 else 1, data := false }))
      cv) canvas

/-- drawSeperator from qrgo.go: one horizontal and one vertical white line of
eight cells each, stepping by dc and dr respectively. -/
def drawSeperator (canvas : List (List Cell)) (row col : Nat) (dr dc : Int) :
    List (List Cell) :=
  let cv1 := (List.range 8).foldl (fun cv i =>
    modifyCell cv row ((col : Int) + dc * i).toNat
      (fun cell => { cell with color := 0, data := false })) canvas
  (List.range 8).foldl (fun cv i =>
    modifyCell cv ((row : Int) + dr * i).toNat col
      (fun cell => { cell with color := 0, data := false })) cv1

/-- The loop of placeAlignmentPatterns from qrgo.go: consume the coordinate
list two entries at a time, drawing a 5 × 5 pattern centred at each pair
(a trailing odd entry is ignored, as by the i < len-1 loop bound). -/
def alignLoop : List (List Cell) → List Nat → List (List Cell)
  | cv, a :: b :: rest => alignLoop (drawPattern cv (a - 2) (b - 2) 5) rest
  | cv, _ => cv

/-- drawTimingPattern from qrgo.go: alternating line on row 6 and column 6,
indices 6 up to 6 + (modules - 14), dark at even indices. -/
def drawTimingPattern (canvas : List (List Cell)) (modules : Nat) :
    List (List Cell) :=
  (List.range (modules - 14)).foldl (fun cv k =>
    let i := 6 + k
    let color := if i % 2 = 0 then 1 else 0
    let cv2 := modifyCell cv 6 i (fun cell => { cell with color := color, data := false })
    modifyCell cv2 i 6 (fun cell => { cell with color := color, data := false })) canvas

/-- reserveFormatInformationArea from qrgo.go. -/
def reserveFormatInformationArea (canvas : List (List Cell)) (modules : Nat) :
    List (List Cell) :=
  let cv := (List.range 9).foldl (fun cv i =>
    let cv2 := if i ≠ 6 then modifyCell cv 8 i (fun cell => { cell with data := false }) else cv
    if i ≠ 0 then modifyCell cv2 8 (modules - i) (fun cell => { cell with data := false }) else cv2)
    canvas
  (List.range 8).foldl (fun cv i =>
    let cv2 := if i ≠ 6 then modifyCell cv i 8 (fun cell => { cell with data := false }) else cv
    if i ≠ 0 then modifyCell cv2 (modules - i) 8 (fun cell => { cell with data := false }) else cv2)
    cv

/-- reserveVersionInformationData from qrgo.go. -/
def reserveVersionInformationData (canvas : List (List Cell)) (modules : Nat) :
    List (List Cell) :=
  (List.range 6).foldl (fun cv i =>
    let cv := modifyCell cv (modules - 11) i (fun cell => { cell with data := false })
    let cv := modifyCell cv (modules - 10) i (fun cell => { cell with data := false })
    let cv := modifyCell cv (modules - 9) i (fun cell => { cell with data := false })
    let cv := modifyCell cv i (modules - 9) (fun cell => { cell with data := false })
    let cv := modifyCell cv i (modules - 10) (fun cell => { cell with data := false })
    modifyCell cv i (modules - 11) (fun cell => { cell with data := false })) canvas

/-- Number of modules per side, as set by NewQR: ((version-1)*4) + 21. -/
def modulesOf (version : Nat) : Nat := (version - 1) * 4 + 21

/-- The canvas exactly as NewQR has prepared it before drawDataBits: finder
patterns, separators, alignment patterns, timing pattern, dark module,
format-information reservation and (for versions ≥ 7) version-information
reservation, in the order of the source. -/
def buildBaseCanvas (version : Nat) : List (List Cell) :=
  let modules := modulesOf version
  let cv := newCanvas modules
  let cv := drawPattern cv 0 0 7
  let cv := drawPattern cv (modules - 7) 0 7
  let cv := drawPattern cv 0 (modules - 7) 7
  let cv := drawSeperator cv 7 7 (-1) (-1)
  let cv := drawSeperator cv 7 (modules - 8) (-1) 1
  let cv := drawSeperator cv (modules - 8) 7 1 (-1)
  let cv := alignLoop cv (alignmentPatternsGo version)
  let cv := drawTimingPattern cv modules
  let cv := modifyCell cv (4 * version + 9) 8
    (fun cell => { cell with color := 1, data := false })
  let cv := reserveFormatInformationArea cv modules
  if 7 ≤ version then reserveVersionInformationData cv modules else cv

/-- Number of canvas cells still carrying data = true (the cells that
drawDataBits will fill with payload bits). -/
def countData (canvas : List (List Cell)) : Nat :=
  (canvas.map (fun row => row.countP (fun cell => cell.data))).sum

/-- Modelled from the spec (section 4.2): one doubling step in GF(2^8) with
primitive polynomial 0x11d.  The Reed-Solomon arithmetic (NewField and
NewRSEncoder) lives in a source file of this repository that is not under
src/, so it is reconstructed here from the specification. -/
def gfNext (x : Nat) : Nat :=
  let y := x * 2
  if 256 ≤ y then y ^^^ 0x11d else y

/-- Modelled from the spec: the first n powers of the generator 2 in
GF(2^8), starting from the given power. -/
def gfExpFrom : Nat → Nat → List Nat
  | 0, _ => []
  | n + 1, x => x :: gfExpFrom n (gfNext x)

/-- Modelled from the spec: exp table, exp[i] = 2^i in GF(2^8). -/
def gfExp : List Nat := gfExpFrom 256 1

/-- Modelled from the spec: log table as the inverse of exp. -/
def gfLog (x : Nat) : Nat := gfExp.findIdx (fun e => e = x)

/-- Modelled from the spec: GF(2^8) multiplication through the log/exp
tables; a zero operand gives zero. -/
def gfMul (a b : Nat) : Nat :=
  if a = 0 ∨ b = 0 then 0 else gfExp.getD ((gfLog a + gfLog b) % 255) 0

/-- Modelled from the spec: multiply a polynomial (coefficients highest
degree first) by (x - a) = (x + a) over GF(2^8). -/
def gfPolyMulX (p : List Nat) (a : Nat) : List Nat :=
  List.zipWith (fun u v => u ^^^ v) (p ++ [0]) (0 :: p.map (fun c => gfMul a c))

/-- Modelled from the spec: the Reed-Solomon generator polynomial
G(x) = prod of (x - 2^i) for i < numErr. -/
def rsGenerator : Nat → List Nat
  | 0 => [1]
  | n + 1 => gfPolyMulX (rsGenerator n) (gfExp.getD n 0)

/-- Modelled from the spec: synthetic-division loop computing the remainder
of M(x)·x^E modulo the generator; genTail is the generator without its
leading 1 and rem holds the current E-coefficient remainder. -/
def eccLoop (genTail : List Nat) : List Nat → List Nat → List Nat
  | rem, [] => rem
  | rem, b :: rest =>
      let factor := b ^^^ rem.getD 0 0
      eccLoop genTail
        (List.zipWith (fun u v => u ^^^ v) (rem.tail ++ [0])
          (genTail.map (fun c => gfMul factor c))) rest

/-- Modelled from the spec: the numErr error-correction codewords of a data
block (RSEncoder.ECC). -/
def rsECC (numErr : Nat) (data : List Nat) : List Nat :=
  eccLoop (rsGenerator numErr).tail (List.replicate numErr 0) data

/-- correction from qrgo.go: per-block ECC words written consecutively; the
loop takes the first numB1 blocks of numW1 words, then numB2 blocks of
numW2 words, advancing the read offset x and write offset y accordingly. -/
def correction (array : List Nat) (numErr numB1 numB2 numW1 numW2 : Nat) :
    List Nat :=
  ((List.range (numB1 + numB2)).map (fun i =>
    if i < numB1 then rsECC numErr ((array.drop (i * numW1)).take numW1)
    else rsECC numErr
      ((array.drop (numB1 * numW1 + (i - numB1) * numW2)).take numW2))).flatten

/-- The inner block loop of interleaveData from qrgo.go: starting from
state (inter, x, y), write array[y] at position x for each of the given
blocks, advancing x by one and y by the block width each time. -/
def writeColumn (array : List Nat) (words blocks : Nat)
    (p : List Nat × Nat × Nat) : List Nat × Nat × Nat :=
  (List.range blocks).foldl
    (fun q _ => (q.1.set q.2.1 (array.getD q.2.2 0), q.2.1 + 1, q.2.2 + words)) p

/-- interleaveData from qrgo.go: writes into a fresh slice of the same
length; the state is (inter, x, b1, b2).  For each column i below
max(words1, words2), the group-1 blocks contribute while b1 < words1 (read
offsets i, i+words1, ...), otherwise y skips over group 1; then the group-2
blocks contribute while b2 < words2. -/
def interleaveData (array : List Nat) (blocks1 blocks2 words1 words2 : Nat) :
    List Nat :=
  (((List.range (max words1 words2)).foldl (fun st i =>
    let s1 :=
      if st.2.2.1 < words1 then
        let q := writeColumn array words1 blocks1 (st.1, st.2.1, i)
        (q.1, q.2.1, q.2.2, st.2.2.1 + 1)
      else (st.1, st.2.1, i + blocks1 * words1, st.2.2.1)
    let s2 :=
      if st.2.2.2 < words2 then
        let q := writeColumn array words2 blocks2 (s1.1, s1.2.1, s1.2.2.1)
        (q.1, q.2.1, st.2.2.2 + 1)
      else (s1.1, s1.2.1, st.2.2.2)
    (s2.1, s2.2.1, s1.2.2.2, s2.2.2))
    (List.replicate array.length 0, 0, 0, 0) : List Nat × Nat × Nat × Nat)).1

/-- interleaveError from qrgo.go: plain transposition of the per-block ECC
words, written into a fresh slice of the same length; the state is
(inter, y). -/
def interleaveError (array : List Nat) (numErr numB1 numB2 : Nat) : List Nat :=
  (((List.range numErr).foldl (fun p i =>
    (List.range (numB1 + numB2)).foldl (fun q j =>
      (q.1.set q.2 (array.getD (i + j * numErr) 0), q.2 + 1)) p)
    (List.replicate array.length 0, 0) : List Nat × Nat)).1

/-- QR.interleave from qrgo.go: error words, data interleaving, error
interleaving, concatenated as bits, right-padded with the remainder bits of
the version. -/
def interleave (encoding : List Nat) (version : Nat) : List Bool :=
  let bi := blockInfoGo version
  let errorBytes := correction encoding bi.errors bi.blocks1 bi.blocks2 bi.words1 bi.words2
  let interData := interleaveData encoding bi.blocks1 bi.blocks2 bi.words1 bi.words2
  let interError := interleaveError errorBytes bi.errors bi.blocks1 bi.blocks2
  let inter := byteArrayToEncoding interData ++ byteArrayToEncoding interError
  padRight inter (inter.length + bi.remainder)

/-- mask0 from qrgo.go. -/
def mask0 (row col : Nat) : Bool := (row + col) % 2 = 0

/-- mask1 from qrgo.go. -/
def mask1 (row col : Nat) : Bool := row % 2 = 0

/-- mask2 from qrgo.go. -/
def mask2 (row col : Nat) : Bool := col % 3 = 0

/-- mask3 from qrgo.go. -/
def mask3 (row col : Nat) : Bool := (row + col) % 3 = 0

/-- mask4 from qrgo.go. -/
def mask4 (row col : Nat) : Bool := (row / 2 + col / 3) % 2 = 0

/-- mask5 from qrgo.go. -/
def mask5 (row col : Nat) : Bool := (row * col) % 2 + (row * col) % 3 = 0

/-- mask6 from qrgo.go. -/
def mask6 (row col : Nat) : Bool := ((row * col) % 2 + (row * col) % 3) % 2 = 0

/-- mask7 from qrgo.go. -/
def mask7 (row col : Nat) : Bool := ((row + col) % 2 + (row * col) % 3) % 2 = 0

/-- The masks slice from qrgo.go. -/
def masks : List (Nat → Nat → Bool) :=
  [mask0, mask1, mask2, mask3, mask4, mask5, mask6, mask7]

/-- Indexing into the masks slice (in range at every call of the source). -/
def masksGo (i : Nat) : Nat → Nat → Bool :=
  masks.getD i (fun _ _ => false)

/-- maskCanvas from qrgo.go: copy the canvas and flip the color of every
data cell selected by the mask predicate. -/
def maskCanvas (canvas : List (List Cell)) (fn : Nat → Nat → Bool) :
    List (List Cell) :=
  let length := canvas.length
  (List.range length).foldl (fun cv r =>
    (List.range length).foldl (fun cv2 c =>
      if (getCell cv2 r c).data ∧ fn r c then
        modifyCell cv2 r c (fun cell => { cell with color := cell.color ^^^ 1 })
      else cv2) cv) canvas

/-- The row scan of pen1 from qrgo.go: running (total, count, prev) state,
prev starting at -1, adding 3 + (run length - 5) for every completed run of
at least five equal colors, with a final flush after the loop. -/
def pen1Row (canvas : List (List Cell)) (r length : Nat) : Int :=
  let st := (List.range length).foldl (fun (st : Int × Int × Int) c =>
    let (total, count, prev) := st
    let color : Int := (getCell canvas r c).color
    if color = prev then (total, count + 1, color)
    else
      let diff := count - 5
      (if 0 ≤ diff then total + (3 + diff) else total, 1, color)) (0, 0, -1)
  let diff := st.2.1 - 5
  if 0 ≤ diff then st.1 + (3 + diff) else st.1

/-- pen1 from qrgo.go: the run penalty summed over all rows (the source
scans rows only). -/
def pen1 (masked : List (List Cell)) : Int :=
  let length := masked.length
  (List.range length).foldl (fun total r => total + pen1Row masked r length) 0

/-- pen2 from qrgo.go: 2 × 2 blocks of equal color, 3 points each; the
source's outer loop runs for r < 1 only, so just the first two rows are
scanned. -/
def pen2 (masked : List (List Cell)) : Int :=
  let length := masked.length
  (List.range 1).foldl (fun total r =>
    (List.range (length - 1)).foldl (fun t2 c =>
      let sum := (getCell masked r c).color + (getCell masked r (c + 1)).color +
        (getCell masked (r + 1) c).color + (getCell masked (r + 1) (c + 1)).color
      if sum = 0 ∨ sum = 4 then t2 + 3 else t2) total) 0

/-- substringOccurrences from qrgo.go: positions i at which the
sub.length-long slice starting at i equals sub (strings.Contains on a
window of exactly the pattern length). -/
def substringOccurrences (s sub : List Nat) : Nat :=
  ((List.range (s.length - sub.length + 1)).filter
    (fun i => (s.drop i).take sub.length = sub)).length

/-- penaltySequences[0] = "10111010000" as a color list. -/
def penaltySeq0 : List Nat := [1, 0, 1, 1, 1, 0, 1, 0, 0, 0, 0]

/-- penaltySequences[1] = "00001011101" as a color list. -/
def penaltySeq1 : List Nat := [0, 0, 0, 0, 1, 0, 1, 1, 1, 0, 1]

/-- pen3 from qrgo.go: 40 points per overlapping occurrence of the finder
sequence in every row (pattern penaltySequences[0]) and every column
(pattern penaltySequences[1]). -/
def pen3 (masked : List (List Cell)) : Int :=
  let length := masked.length
  (List.range length).foldl (fun total i =>
    let row := (List.range length).map (fun j => (getCell masked i j).color)
    let col := (List.range length).map (fun j => (getCell masked j i).color)
    total + (substringOccurrences row penaltySeq0 : Int) * 40 +
      (substringOccurrences col penaltySeq1 : Int) * 40) 0

/-- pen4 from qrgo.go.  The source computes with float64; every operation is
modelled by its exact value: int(ratio/5) is the floor of 20·numBlack /
numModules (the float computation cannot cross an integer boundary, because
a non-integral exact value is at least 1/numModules away from any integer
while the accumulated rounding error is orders of magnitude smaller for
canvases of at most 185 × 185 cells), and the remaining quantities are
multiples of 5 divided by 5, which float64 computes exactly. -/
def pen4 (masked : List (List Cell)) : Int :=
  let length := masked.length
  let numModules := length * length
  let numBlack := (List.range length).foldl (fun nb r =>
    (List.range length).foldl (fun nb2 c => nb2 + (getCell masked r c).color) nb) 0
  let low := (20 * numBlack / numModules) * 5
  let up := (20 * numBlack / numModules + 1) * 5
  let down := (max low 50 - min low 50) / 5
  let top := (max up 50 - min up 50) / 5
  if down ≤ top then (down : Int) * 10 else (top : Int) * 10

/-- The total penalty the source assigns to mask i on a canvas: pen1 + pen2
+ pen3 + pen4 of the masked copy. -/
def penaltyOf (canvas : List (List Cell)) (i : Nat) : Int :=
  let masked := maskCanvas canvas (masksGo i)
  pen1 masked + pen2 masked + pen3 masked + pen4 masked

/-- One iteration of the mask-selection loop of QR.dataMasking from qrgo.go:
state is (winning canvas, winning index, running minimum); mask i takes over
exactly when its penalty is strictly below the running minimum. -/
def maskStep (canvas : List (List Cell)) (st : List (List Cell) × Int × Int)
    (i : Nat) : List (List Cell) × Int × Int :=
  if penaltyOf canvas i < st.2.2 then
    (maskCanvas canvas (masksGo i), (i : Int), penaltyOf canvas i)
  else st

/-- QR.dataMasking from qrgo.go: evaluate all eight masks, keep the first
one whose total penalty strictly improves the running minimum (which starts
at math.MaxInt64), and return the winning masked canvas and mask index. -/
def dataMasking (canvas : List (List Cell)) : List (List Cell) × Int :=
  let st := (List.range 8).foldl (maskStep canvas) ([], -1, 9223372036854775807)
  (st.1, st.2.1)

/-- Write one color into a canvas cell, leaving the data flag alone
(the format writer only assigns .color). -/
def setColor (canvas : List (List Cell)) (r c : Nat) (color : Nat) :
    List (List Cell) :=
  modifyCell canvas r c (fun cell => { cell with color := color })

/-- drawFormatInformationString from qrgo.go: the first loop writes format
bits 0-6 along row 8 (column 7 instead of 6 for bit 6) and down the left
column of the second copy; the second loop writes bits 7-14 up column 8 at
rows 8-i and along row 8 of the second copy, skipping iteration i = 2
entirely. -/
def drawFormatInformationString (canvas : List (List Cell))
    (maskIdx : Nat) (modules : Nat) : List (List Cell) :=
  let fis := formatInformationStrings.getD maskIdx []
  let bit := fun i => if fis.getD i false then 1 else 0
  let cv := (List.range 7).foldl (fun cv i =>
    let num := bit i
    let cv2 := if i = 6 then setColor cv 8 (i + 1) num else setColor cv 8 i num
    setColor cv2 (modules - (i + 1)) 8 num) canvas
  (List.range 8).foldl (fun cv i =>
    let num := bit (i + 7)
    if i ≠ 2 then
      let cv2 := setColor cv (8 - i) 8 num
      setColor cv2 8 (modules - (8 - i)) num
    else cv) cv

/-! Helper lemmas about the binary formatter. -/

theorem fmtBinAux_fuel (n : Nat) : ∀ fuel fuel2, n ≤ fuel → n ≤ fuel2 →
    fmtBinAux fuel n = fmtBinAux fuel2 n := by
  induction n using Nat.strong_induction_on with
  | _ n ih =>
    intro fuel fuel2 h1 h2
    match n with
    | 0 => cases fuel <;> cases fuel2 <;> rfl
    | 1 => cases fuel <;> cases fuel2 <;> rfl
    | n + 2 =>
      obtain ⟨f, rfl⟩ : ∃ f, fuel = f + 1 := ⟨fuel - 1, by omega⟩
      obtain ⟨f2, rfl⟩ : ∃ f2, fuel2 = f2 + 1 := ⟨fuel2 - 1, by omega⟩
      show fmtBinAux f ((n + 2) / 2) ++ _ = fmtBinAux f2 ((n + 2) / 2) ++ _
      rw [ih ((n + 2) / 2) (by omega) f f2 (by omega) (by omega)]

theorem fmtBin_step {n : Nat} (h : 2 ≤ n) :
    fmtBin n = fmtBin (n / 2) ++ [decide (n % 2 = 1)] := by
  obtain ⟨m, rfl⟩ : ∃ m, n = m + 2 := ⟨n - 2, by omega⟩
  show fmtBinAux (m + 2) (m + 2) = _
  show fmtBinAux (m + 1) ((m + 2) / 2) ++ _ = _
  rw [fmtBinAux_fuel ((m + 2) / 2) (m + 1) ((m + 2) / 2) (by omega) le_rfl]
  rfl

theorem fmtBin_length (n : Nat) : (fmtBin n).length = Nat.log2 n + 1 := by
  induction n using Nat.strong_induction_on with
  | _ n ih =>
    match n with
    | 0 => simp [fmtBin, fmtBinAux, Nat.log2]
    | 1 => simp [fmtBin, fmtBinAux, Nat.log2]
    | n + 2 =>
      rw [fmtBin_step (by omega), List.length_append, ih ((n + 2) / 2) (by omega)]
      conv_rhs => rw [Nat.log2]
      simp [show 2 ≤ n + 2 by omega]

theorem parseBin_foldl (s : List Bool) (init : Nat) :
    s.foldl (fun a b => 2 * a + (if b then 1 else 0)) init =
      init * 2 ^ s.length + parseBin s := by
  induction s generalizing init with
  | nil => simp [parseBin]
  | cons x s ih =>
    simp only [List.foldl_cons, parseBin, List.length_cons]
    rw [ih, ih (2 * 0 + if x then 1 else 0)]
    ring

theorem parseBin_append (a b : List Bool) :
    parseBin (a ++ b) = parseBin a * 2 ^ b.length + parseBin b := by
  unfold parseBin
  rw [List.foldl_append]
  rw [parseBin_foldl b (List.foldl _ 0 a)]
  rfl

theorem parseBin_fmtBin (n : Nat) : parseBin (fmtBin n) = n := by
  induction n using Nat.strong_induction_on with
  | _ n ih =>
    match n with
    | 0 => rfl
    | 1 => rfl
    | n + 2 =>
      rw [fmtBin_step (by omega), parseBin_append, ih ((n + 2) / 2) (by omega)]
      have h2 : (n + 2) % 2 = 0 ∨ (n + 2) % 2 = 1 := by omega
      rcases h2 with h | h <;> simp [parseBin, h] <;> omega

theorem fmtBin_length_le {v k : Nat} (hv : v < 2 ^ k) (hk : 1 ≤ k) :
    (fmtBin v).length ≤ k := by
  rw [fmtBin_length]
  rcases Nat.eq_zero_or_pos v with h | h
  · subst h
    simp [Nat.log2]
    omega
  · have := (Nat.log2_lt (Nat.pos_iff_ne_zero.mp h)).mpr hv
    omega

theorem fmtBin_length_eq_iff {v k : Nat} (hv : v < 2 ^ k) (hk : 2 ≤ k) :
    ((fmtBin v).length = k ↔ 2 ^ (k - 1) ≤ v) := by
  rw [fmtBin_length]
  rcases Nat.eq_zero_or_pos v with h | h
  · subst h
    have h1 : Nat.log2 0 = 0 := by simp [Nat.log2]
    have h2 : 0 < 2 ^ (k - 1) := by positivity
    rw [h1]
    omega
  · have hne := Nat.pos_iff_ne_zero.mp h
    constructor
    · intro heq
      have hlog : k - 1 ≤ Nat.log2 v := by omega
      exact (Nat.le_log2 hne).mp hlog
    · intro hge
      have h1 : k - 1 ≤ Nat.log2 v := (Nat.le_log2 hne).mpr hge
      have h2 : Nat.log2 v < k := (Nat.log2_lt hne).mpr hv
      omega

theorem digit_toNat {c : Char} (h : c.isDigit = true) :
    48 ≤ c.toNat ∧ c.toNat ≤ 57 := by
  simp only [Char.isDigit, decide_eq_true_eq, Bool.and_eq_true] at h
  obtain ⟨h1, h2⟩ := h
  constructor
  · exact h1
  · exact h2

theorem parseDec_foldl_lt (s : List Char) (hd : ∀ c ∈ s, c.isDigit) :
    ∀ init, s.foldl (fun a c => a * 10 + (c.toNat - 48)) init <
      (init + 1) * 10 ^ s.length := by
  induction s with
  | nil => intro init; simp
  | cons x s ih =>
    intro init
    simp only [List.foldl_cons, List.length_cons]
    have hx := digit_toNat (hd x (by simp))
    have hs : ∀ c ∈ s, c.isDigit = true := fun c hc => hd c (by simp [hc])
    calc List.foldl (fun a c => a * 10 + (c.toNat - 48)) (init * 10 + (x.toNat - 48)) s
        < (init * 10 + (x.toNat - 48) + 1) * 10 ^ s.length := ih hs _
      _ ≤ (init + 1) * 10 ^ (s.length + 1) := by
          have : init * 10 + (x.toNat - 48) + 1 ≤ (init + 1) * 10 := by omega
          calc (init * 10 + (x.toNat - 48) + 1) * 10 ^ s.length
              ≤ (init + 1) * 10 * 10 ^ s.length :=
                Nat.mul_le_mul_right _ this
            _ = (init + 1) * 10 ^ (s.length + 1) := by ring

theorem parseDec_lt (s : List Char) (hd : ∀ c ∈ s, c.isDigit) :
    parseDec s < 10 ^ s.length := by
  unfold parseDec
  split
  · have := parseDec_foldl_lt s hd 0
    simpa using this
  · positivity

/-! Helper lemmas about the numeric group decomposition. -/

theorem encNumeric_eq_groups (data : List Char) :
    encNumeric data = ((numericGroups data).map stringToBinary).flatten := by
  suffices H : ∀ n (d : List Char), d.length ≤ n →
      encNumeric d = ((numericGroups d).map stringToBinary).flatten from
    H data.length data le_rfl
  intro n
  induction n with
  | zero =>
    intro d h
    rcases d with _ | ⟨c, d⟩
    · rfl
    · simp at h
  | succ n ih =>
    intro d h
    rcases d with _ | ⟨c1, _ | ⟨c2, _ | ⟨c3, rest⟩⟩⟩
    · rfl
    · simp [encNumeric, numericGroups]
    · simp [encNumeric, numericGroups]
    · simp only [encNumeric, numericGroups, List.map_cons, List.flatten_cons]
      rw [ih rest (by simp at h; omega)]

theorem numericGroups_mem (data : List Char) :
    ∀ g ∈ numericGroups data, 1 ≤ g.length ∧ g.length ≤ 3 ∧ ∀ c ∈ g, c ∈ data := by
  suffices H : ∀ n (d : List Char), d.length ≤ n → ∀ g ∈ numericGroups d,
      1 ≤ g.length ∧ g.length ≤ 3 ∧ ∀ c ∈ g, c ∈ d from
    H data.length data le_rfl
  intro n
  induction n with
  | zero =>
    intro d h g hg
    rcases d with _ | ⟨c, d⟩
    · simp [numericGroups] at hg
    · simp at h
  | succ n ih =>
    intro d h g hg
    rcases d with _ | ⟨c1, _ | ⟨c2, _ | ⟨c3, rest⟩⟩⟩
    · simp [numericGroups] at hg
    · simp only [numericGroups, List.mem_singleton] at hg
      subst hg
      exact ⟨by simp, by simp, fun c hc => hc⟩
    · simp only [numericGroups, List.mem_singleton] at hg
      subst hg
      exact ⟨by simp, by simp, fun c hc => hc⟩
    · simp only [numericGroups, List.mem_cons] at hg
      rcases hg with hg | hg
      · subst hg
        refine ⟨by simp, by simp, ?_⟩
        intro c hc
        simp only [List.mem_cons] at hc ⊢
        tauto
      · obtain ⟨h1, h2, h4⟩ := ih rest (by simp at h; omega) g hg
        refine ⟨h1, h2, fun c hc => ?_⟩
        simp only [List.mem_cons]
        exact Or.inr (Or.inr (Or.inr (h4 c hc)))

/-- Claim C1 (corrected), counterexample: the full group "007" is emitted as
the three bits 111, not as ten bits; the claim's required 10-bit output is
not produced. -/
theorem C1_counterexample :
    encNumeric ['0', '0', '7'] = [true, true, true] ∧
    (encNumeric ['0', '0', '7']).length ≠ 10 := by
  constructor
  · rfl
  · decide

/-- Claim C1 (corrected): on an all-digit input, encNumeric emits for each
group (full groups of three digits, then a trailing group of one or two) the
minimal-width binary representation of the group's decimal value - the
value round-trips through the bits, the width is log2(value) + 1, so a full
group occupies at most 10 bits and exactly 10 only when its value is at
least 512 (leading zeros within a group are dropped, not preserved);
trailing groups occupy at most 7 respectively 4 bits, with equality only
from value 64 respectively 8 on. -/
theorem C1_encNumeric_minimal_width (data : List Char)
    (hd : ∀ c ∈ data, c.isDigit) :
    encNumeric data = ((numericGroups data).map (fun g => fmtBin (parseDec g))).flatten ∧
    ∀ g ∈ numericGroups data,
      parseBin (fmtBin (parseDec g)) = parseDec g ∧
      (fmtBin (parseDec g)).length = Nat.log2 (parseDec g) + 1 ∧
      (g.length = 3 → (fmtBin (parseDec g)).length ≤ 10 ∧
        ((fmtBin (parseDec g)).length = 10 ↔ 512 ≤ parseDec g)) ∧
      (g.length = 2 → (fmtBin (parseDec g)).length ≤ 7 ∧
        ((fmtBin (parseDec g)).length = 7 ↔ 64 ≤ parseDec g)) ∧
      (g.length = 1 → (fmtBin (parseDec g)).length ≤ 4 ∧
        ((fmtBin (parseDec g)).length = 4 ↔ 8 ≤ parseDec g)) := by
  constructor
  · rw [encNumeric_eq_groups]
    congr 1
    apply List.map_congr_left
    intro g hg
    have h1 := (numericGroups_mem data g hg).1
    unfold stringToBinary
    rw [if_neg (by omega)]
  · intro g hg
    obtain ⟨h1, h2, hsub⟩ := numericGroups_mem data g hg
    have hdig : ∀ c ∈ g, c.isDigit := fun c hc => hd c (hsub c hc)
    have hlt : parseDec g < 10 ^ g.length := parseDec_lt g hdig
    refine ⟨parseBin_fmtBin _, fmtBin_length _, ?_, ?_, ?_⟩
    · intro hlen3
      rw [hlen3] at hlt
      have hv : parseDec g < 2 ^ 10 := by omega
      exact ⟨fmtBin_length_le hv (by omega), fmtBin_length_eq_iff hv (by omega)⟩
    · intro hlen2
      rw [hlen2] at hlt
      have hv : parseDec g < 2 ^ 7 := by omega
      exact ⟨fmtBin_length_le hv (by omega), fmtBin_length_eq_iff hv (by omega)⟩
    · intro hlen1
      rw [hlen1] at hlt
      have hv : parseDec g < 2 ^ 4 := by omega
      exact ⟨fmtBin_length_le hv (by omega), fmtBin_length_eq_iff hv (by omega)⟩

/-- Witness for C1: the amended statement applied to the concrete all-digit
input "8675309". -/
theorem C1_encNumeric_minimal_width_witness :
    (∀ c ∈ ['8', '6', '7', '5', '3', '0', '9'], c.isDigit) ∧
    (encNumeric ['8', '6', '7', '5', '3', '0', '9'] =
      ((numericGroups ['8', '6', '7', '5', '3', '0', '9']).map
        (fun g => fmtBin (parseDec g))).flatten) :=
  ⟨by decide, (C1_encNumeric_minimal_width _ (by decide)).1⟩

/-! Mode detection (claim C5). -/

theorem matchDotStar_cons (cls : Char → Bool) (c : Char) (rest : List Char) :
    matchDotStar cls (c :: rest) = true ↔ c ≠ '\n' ∧ ∀ x ∈ rest, cls x := by
  simp [matchDotStar]

theorem isDigit_ne_newline {x : Char} (hx : x.isDigit = true) : x ≠ '\n' := by
  intro he
  subst he
  exact absurd hx (by decide)

/-- Claim C5 (corrected), counterexample: the single-character input "A" is
classified Numeric although 'A' is not a decimal digit - the numeric regex
"^.[0-9]*$" lets the first character be anything. -/
theorem C5_counterexample :
    mode ['A'] = numeric ∧ 'A'.isDigit = false := by decide

/-- Claim C5 (corrected): for a nonempty input, the mode is Numeric exactly
when the first character is not a newline and every later character is a
decimal digit (the first character itself is unconstrained); it is
Alphanumeric exactly when it is not Numeric, the first character is not a
newline, and every later character lies in the 45-character alphanumeric
set; otherwise Byte.  In particular every all-digit input is Numeric. -/
theorem C5_mode_detection (c : Char) (rest : List Char) :
    (mode (c :: rest) = numeric ↔ c ≠ '\n' ∧ ∀ x ∈ rest, x.isDigit) ∧
    (mode (c :: rest) = alpha ↔
      c ≠ '\n' ∧ (∀ x ∈ rest, isAlphaQR x) ∧ ¬ ∀ x ∈ rest, x.isDigit) ∧
    ((∀ x ∈ c :: rest, x.isDigit) → mode (c :: rest) = numeric) ∧
    (mode (c :: rest) = numeric ∨ mode (c :: rest) = alpha ∨
      mode (c :: rest) = byteMode) := by
  by_cases h1 : matchDotStar Char.isDigit (c :: rest) = true
  · have hm : mode (c :: rest) = numeric := by rw [mode, if_pos h1]
    rw [hm, matchDotStar_cons] at *
    refine ⟨⟨fun _ => h1, fun _ => rfl⟩, ?_, fun _ => rfl, Or.inl rfl⟩
    constructor
    · intro he
      exact absurd he (by decide)
    · rintro ⟨-, -, hnd⟩
      exact absurd h1.2 hnd
  · by_cases h2 : matchDotStar isAlphaQR (c :: rest) = true
    · have hm : mode (c :: rest) = alpha := by rw [mode, if_neg h1, if_pos h2]
      rw [matchDotStar_cons] at h1 h2
      rw [hm]
      refine ⟨⟨fun he => absurd he (by decide), fun hh => absurd hh h1⟩, ?_, ?_,
        Or.inr (Or.inl rfl)⟩
      · exact ⟨fun _ => ⟨h2.1, h2.2, fun hall => h1 ⟨h2.1, hall⟩⟩, fun _ => rfl⟩
      · intro hall
        exact absurd ⟨isDigit_ne_newline (hall c (List.mem_cons_self c rest)),
          fun x hx => hall x (List.mem_cons_of_mem c hx)⟩ h1
    · have hm : mode (c :: rest) = byteMode := by rw [mode, if_neg h1, if_neg h2]
      rw [matchDotStar_cons] at h1 h2
      rw [hm]
      refine ⟨⟨fun he => absurd he (by decide), fun hh => absurd hh h1⟩,
        ⟨fun he => absurd he (by decide), fun hh => h2 ⟨hh.1, hh.2.1⟩ |>.elim⟩, ?_,
        Or.inr (Or.inr rfl)⟩
      intro hall
      exact absurd ⟨isDigit_ne_newline (hall c (List.mem_cons_self c rest)),
        fun x hx => hall x (List.mem_cons_of_mem c hx)⟩ h1

/-! Lower-bound characterization of the binary search (claim C6). -/

theorem lowerBound_le_length (v : Nat) : ∀ l : List Nat, lowerBound v l ≤ l.length
  | [] => by simp [lowerBound]
  | a :: rest => by
    simp only [lowerBound, List.length_cons]
    split
    · omega
    · have := lowerBound_le_length v rest
      omega

theorem lowerBound_lt_val (v : Nat) :
    ∀ (l : List Nat) (j : Nat), j < lowerBound v l → l.getD j 0 < v
  | [], j, h => by simp [lowerBound] at h
  | a :: rest, j, h => by
    simp only [lowerBound] at h
    split at h
    · omega
    · rename_i hva
      cases j with
      | zero => simpa using by omega
      | succ j =>
        have := lowerBound_lt_val v rest j (by omega)
        simpa using this

theorem lowerBound_ge_val (v : Nat) :
    ∀ l : List Nat, lowerBound v l < l.length → v ≤ l.getD (lowerBound v l) 0
  | [], h => by simp [lowerBound] at h
  | a :: rest, h => by
    by_cases hva : v ≤ a
    · simp [lowerBound, hva]
    · have hlb : lowerBound v (a :: rest) = lowerBound v rest + 1 := by
        simp [lowerBound, hva]
      rw [hlb] at h ⊢
      simp only [List.length_cons] at h
      have := lowerBound_ge_val v rest (by omega)
      simpa using this

theorem lowerBound_lt_length (v : Nat) :
    ∀ l : List Nat, (∃ i, i < l.length ∧ v ≤ l.getD i 0) → lowerBound v l < l.length
  | [], ⟨i, hi, _⟩ => by simp at hi
  | a :: rest, ⟨i, hi, hvi⟩ => by
    simp only [lowerBound, List.length_cons]
    split
    · omega
    · rename_i hva
      have : lowerBound v rest < rest.length := by
        apply lowerBound_lt_length v rest
        cases i with
        | zero => exact absurd (by simpa using hvi) hva
        | succ i => exact ⟨i, by simp at hi; omega, by simpa using hvi⟩
      omega

theorem lowerBound_unique (l : List Nat) (v r : Nat) (hr : r ≤ l.length)
    (h1 : ∀ j, j < r → l.getD j 0 < v) (h2 : r < l.length → v ≤ l.getD r 0) :
    r = lowerBound v l := by
  by_contra hne
  rcases Nat.lt_or_ge r (lowerBound v l) with h | h
  · have hlen : r < l.length := lt_of_lt_of_le h (lowerBound_le_length v l)
    have ha := lowerBound_lt_val v l r h
    have hb := h2 hlen
    omega
  · have hlt : lowerBound v l < r := by omega
    have hlb : lowerBound v l < l.length := lt_of_lt_of_le hlt hr
    have ha := lowerBound_ge_val v l hlb
    have hb := h1 _ hlt
    omega

theorem binarySearchLoop_spec (array : List Nat) (value : Nat)
    (hsort : ∀ j, j < array.length → ∀ i, i ≤ j →
      array.getD i 0 ≤ array.getD j 0)
    (hlen : array.length = 40) :
    ∀ fuel low high, high - low ≤ fuel → low ≤ high → high ≤ 40 →
    (∀ i, i < low → array.getD i 0 < value) →
    (∀ i, high ≤ i → i < 40 → value ≤ array.getD i 0) →
    binarySearchLoop array value fuel low high = lowerBound value array := by
  intro fuel
  induction fuel with
  | zero =>
    intro low high hf hlh hh40 hlow hhigh
    have heq : low = high := by omega
    show low = _
    apply lowerBound_unique array value low (by omega)
    · exact hlow
    · intro hlt
      exact hhigh low (by omega) (by omega)
  | succ fuel ih =>
    intro low high hf hlh hh40 hlow hhigh
    show (if low < high then _ else low) = _
    split
    · rename_i hlow_high
      have hmid1 : low ≤ (low + high) / 2 := by omega
      have hmid2 : (low + high) / 2 < high := by omega
      show (if array.getD ((low + high) / 2) 0 < value then _ else _) = _
      split
      · rename_i harr
        apply ih ((low + high) / 2 + 1) high (by omega) (by omega) hh40
        · intro i hi
          rcases Nat.lt_or_ge i ((low + high) / 2) with h | h
          · rcases Nat.lt_or_ge i low with h2 | h2
            · exact hlow i h2
            · calc array.getD i 0 ≤ array.getD ((low + high) / 2) 0 :=
                    hsort _ (by omega) _ (by omega)
                _ < value := harr
          · have : i = (low + high) / 2 := by omega
            rw [this]
            exact harr
        · exact hhigh
      · rename_i harr
        apply ih low ((low + high) / 2) (by omega) (by omega) (by omega) hlow
        intro i hi hi40
        calc value ≤ array.getD ((low + high) / 2) 0 := by omega
          _ ≤ array.getD i 0 := hsort _ (by omega) _ (by omega)
    · have heq : low = high := by omega
      apply lowerBound_unique array value low (by omega)
      · exact hlow
      · intro hlt
        exact hhigh low (by omega) (by omega)

theorem binarySearch_sorted (array : List Nat) (value : Nat)
    (hsort : ∀ j, j < array.length → ∀ i, i ≤ j →
      array.getD i 0 ≤ array.getD j 0)
    (hlen : array.length = 40) :
    binarySearch array value = lowerBound value array := by
  apply binarySearchLoop_spec array value hsort hlen 40 0 40 (by omega) (by omega)
    (by omega)
  · intro i hi
    omega
  · intro i h1 h2
    omega

theorem maxCharsNumeric_sorted : ∀ j, j < maxCharsNumeric.length → ∀ i, i ≤ j →
    maxCharsNumeric.getD i 0 ≤ maxCharsNumeric.getD j 0 := by decide

theorem maxCharsAlpha_sorted : ∀ j, j < maxCharsAlpha.length → ∀ i, i ≤ j →
    maxCharsAlpha.getD i 0 ≤ maxCharsAlpha.getD j 0 := by decide

theorem maxCharsBytes_le : ∀ i, i < 40 → maxCharsBytes.getD i 0 ≤ 2953 := by
  decide

theorem bytesChunk0 : ∀ v, v < 300 →
    binarySearch maxCharsBytes v = lowerBound v maxCharsBytes := by decide

theorem bytesChunk1 : ∀ v, v < 300 →
    binarySearch maxCharsBytes (300 + v) = lowerBound (300 + v) maxCharsBytes := by decide

theorem bytesChunk2 : ∀ v, v < 300 →
    binarySearch maxCharsBytes (600 + v) = lowerBound (600 + v) maxCharsBytes := by decide

theorem bytesChunk3 : ∀ v, v < 300 →
    binarySearch maxCharsBytes (900 + v) = lowerBound (900 + v) maxCharsBytes := by decide

theorem bytesChunk4 : ∀ v, v < 300 →
    binarySearch maxCharsBytes (1200 + v) = lowerBound (1200 + v) maxCharsBytes := by decide

theorem bytesChunk5 : ∀ v, v < 300 →
    binarySearch maxCharsBytes (1500 + v) = lowerBound (1500 + v) maxCharsBytes := by decide

theorem bytesChunk6 : ∀ v, v < 300 →
    binarySearch maxCharsBytes (1800 + v) = lowerBound (1800 + v) maxCharsBytes := by decide

theorem bytesChunk7 : ∀ v, v < 300 →
    binarySearch maxCharsBytes (2100 + v) = lowerBound (2100 + v) maxCharsBytes := by decide

theorem bytesChunk8 : ∀ v, v < 300 →
    binarySearch maxCharsBytes (2400 + v) = lowerBound (2400 + v) maxCharsBytes := by decide

theorem bytesChunk9 : ∀ v, v < 254 →
    binarySearch maxCharsBytes (2700 + v) = lowerBound (2700 + v) maxCharsBytes := by decide

/-- Despite the out-of-order entry maxCharsBytes[21] = 779, the binary search
on the byte capacity table still returns the first fitting index for every
length that fits some version (checked exhaustively in chunks). -/
theorem maxCharsBytes_bs_eq_lb :
    ∀ v, v < 2954 → binarySearch maxCharsBytes v = lowerBound v maxCharsBytes := by
  intro v hv
  rcases Nat.lt_or_ge v 300 with h | h
  · exact bytesChunk0 v h
  rcases Nat.lt_or_ge v 600 with h2 | h2
  · obtain ⟨w, rfl⟩ : ∃ w, v = 300 + w := ⟨v - 300, by omega⟩
    exact bytesChunk1 w (by omega)
  rcases Nat.lt_or_ge v 900 with h3 | h3
  · obtain ⟨w, rfl⟩ : ∃ w, v = 600 + w := ⟨v - 600, by omega⟩
    exact bytesChunk2 w (by omega)
  rcases Nat.lt_or_ge v 1200 with h4 | h4
  · obtain ⟨w, rfl⟩ : ∃ w, v = 900 + w := ⟨v - 900, by omega⟩
    exact bytesChunk3 w (by omega)
  rcases Nat.lt_or_ge v 1500 with h5 | h5
  · obtain ⟨w, rfl⟩ : ∃ w, v = 1200 + w := ⟨v - 1200, by omega⟩
    exact bytesChunk4 w (by omega)
  rcases Nat.lt_or_ge v 1800 with h6 | h6
  · obtain ⟨w, rfl⟩ : ∃ w, v = 1500 + w := ⟨v - 1500, by omega⟩
    exact bytesChunk5 w (by omega)
  rcases Nat.lt_or_ge v 2100 with h7 | h7
  · obtain ⟨w, rfl⟩ : ∃ w, v = 1800 + w := ⟨v - 1800, by omega⟩
    exact bytesChunk6 w (by omega)
  rcases Nat.lt_or_ge v 2400 with h8 | h8
  · obtain ⟨w, rfl⟩ : ∃ w, v = 2100 + w := ⟨v - 2100, by omega⟩
    exact bytesChunk7 w (by omega)
  rcases Nat.lt_or_ge v 2700 with h9 | h9
  · obtain ⟨w, rfl⟩ : ∃ w, v = 2400 + w := ⟨v - 2400, by omega⟩
    exact bytesChunk8 w (by omega)
  obtain ⟨w, rfl⟩ : ∃ w, v = 2700 + w := ⟨v - 2700, by omega⟩
  exact bytesChunk9 w (by omega)

/-- Claim C6 (confirmed): for every length that fits some version of the
detected mode's capacity table, the selected version V is the smallest index
i in [1,40] such that table[i-1] ≥ length - including Byte mode, despite
the non-monotone entry maxCharsBytes[21] = 779 (which the binary search can
only probe with values above 929, so it never disturbs the result). -/
theorem C6_version_selection (m len : Nat) (hlen : 1 ≤ len)
    (hfit : ∃ i, i < 40 ∧ len ≤ (capTable m).getD i 0) :
    1 ≤ versionOf m len ∧ versionOf m len ≤ 40 ∧
    len ≤ (capTable m).getD (versionOf m len - 1) 0 ∧
    ∀ j, j + 1 < versionOf m len → (capTable m).getD j 0 < len := by
  have hv : versionOf m len = binarySearch (capTable m) len + 1 := by
    unfold versionOf capTable
    by_cases h1 : m = numeric
    · rw [if_pos h1, if_pos h1]
    · rw [if_neg h1, if_neg h1]
      by_cases h2 : m = alpha
      · rw [if_pos h2, if_pos h2]
      · rw [if_neg h2, if_neg h2]
  have hlen40 : (capTable m).length = 40 := by
    unfold capTable
    by_cases h1 : m = numeric
    · rw [if_pos h1]; decide
    · rw [if_neg h1]
      by_cases h2 : m = alpha
      · rw [if_pos h2]; decide
      · rw [if_neg h2]; decide
  have hlb : binarySearch (capTable m) len = lowerBound len (capTable m) := by
    unfold capTable
    by_cases h1 : m = numeric
    · rw [if_pos h1]
      exact binarySearch_sorted _ _ maxCharsNumeric_sorted (by decide)
    · rw [if_neg h1]
      by_cases h2 : m = alpha
      · rw [if_pos h2]
        exact binarySearch_sorted _ _ maxCharsAlpha_sorted (by decide)
      · rw [if_neg h2]
        apply maxCharsBytes_bs_eq_lb
        obtain ⟨i, hi, hle⟩ := hfit
        have hcap : (capTable m).getD i 0 ≤ 2953 := by
          unfold capTable
          rw [if_neg h1, if_neg h2]
          exact maxCharsBytes_le i hi
        unfold capTable at hle
        rw [if_neg h1, if_neg h2] at hle
        have := maxCharsBytes_le i hi
        omega
  obtain ⟨i, hi40, hle⟩ := hfit
  have hflt : lowerBound len (capTable m) < (capTable m).length :=
    lowerBound_lt_length len _ ⟨i, by omega, hle⟩
  rw [hv, hlb]
  refine ⟨by omega, by omega, ?_, ?_⟩
  · simpa using lowerBound_ge_val len _ hflt
  · intro j hj
    exact lowerBound_lt_val len _ j (by omega)

/-- Witness for C6 at byte mode and length 800, where the selected version
(20) lies just before the non-monotone byte table entry. -/
theorem C6_version_selection_witness :
    (1 ≤ 800 ∧ ∃ i, i < 40 ∧ 800 ≤ (capTable byteMode).getD i 0) ∧
    (1 ≤ versionOf byteMode 800 ∧ versionOf byteMode 800 ≤ 40 ∧
      800 ≤ (capTable byteMode).getD (versionOf byteMode 800 - 1) 0 ∧
      ∀ j, j + 1 < versionOf byteMode 800 →
        (capTable byteMode).getD j 0 < 800) :=
  ⟨⟨by omega, 19, by decide⟩,
    C6_version_selection byteMode 800 (by omega) ⟨19, by decide⟩⟩

/-- Claim C3 (code_bug): a numeric input of 7090 digits exceeds every
version's numeric capacity, yet NewQR performs no oversize check: the
version becomes 41 and the blockInfo lookup misses (all block counts zero),
after which the interleaved bit string is far shorter than the number of
free data cells, so drawDataBits indexes Interleaved out of range and
panics instead of returning an error. -/
theorem C3_oversize_no_error :
    mode (List.replicate 7090 '9') = numeric ∧
    (List.replicate 7090 '9').length = 7090 ∧
    (∀ i, i < 40 → maxCharsNumeric.getD i 0 < 7090) ∧
    versionOf numeric 7090 = 41 ∧
    blockInfoTable (versionOf numeric 7090) = none := by
  have hmatch : matchDotStar Char.isDigit (List.replicate 7090 '9') = true := by
    rw [List.replicate_succ, matchDotStar_cons]
    refine ⟨by decide, fun x hx => ?_⟩
    rw [List.eq_of_mem_replicate hx]
    decide
  refine ⟨?_, List.length_replicate .., by decide, by decide, by decide⟩
  rw [mode, if_pos hmatch]

theorem mode_replicate_a (n : Nat) :
    mode (List.replicate (n + 2) 'a') = byteMode := by
  have hdig : matchDotStar Char.isDigit (List.replicate (n + 2) 'a') = false := by
    rw [List.replicate_succ]
    simp only [matchDotStar, Bool.and_eq_false_iff]
    right
    cases hall : (List.replicate (n + 1) 'a').all Char.isDigit
    · rfl
    · have := List.all_eq_true.mp hall 'a' (List.mem_replicate.mpr ⟨by omega, rfl⟩)
      exact absurd this (by decide)
  have halp : matchDotStar isAlphaQR (List.replicate (n + 2) 'a') = false := by
    rw [List.replicate_succ]
    simp only [matchDotStar, Bool.and_eq_false_iff]
    right
    cases hall : (List.replicate (n + 1) 'a').all isAlphaQR
    · rfl
    · have := List.all_eq_true.mp hall 'a' (List.mem_replicate.mpr ⟨by omega, rfl⟩)
      exact absurd this (by decide)
  rw [mode, if_neg (Bool.eq_false_iff.mp hdig), if_neg (Bool.eq_false_iff.mp halp)]

theorem mode_rep520 : mode (List.replicate 520 'a') = byteMode :=
  mode_replicate_a 518

/-- Claim C7 (corrected), counterexample: the 520-byte input of letters "a"
is valid (byte mode, length within the capacity table), but its selected
version is 15 and the blockInfo lookup for version 15 misses - the table
only covers versions 1-14. -/
theorem C7_counterexample :
    mode (List.replicate 520 'a') = byteMode ∧
    (List.replicate 520 'a').length = 520 ∧
    520 ≤ maxCharsBytes.getD 39 0 ∧
    versionOf byteMode 520 = 15 ∧
    blockInfoTable (versionOf byteMode 520) = none :=
  ⟨mode_rep520, List.length_replicate .., by decide, by decide, by decide⟩

/-- Claim C7 (corrected): for inputs whose selected version is at most 12,
every constant-table lookup of the encoder succeeds: blockInfo has the
version (its entries stop at 14), the alignment-pattern table has it for
versions 2-12, and a version-information string exists for versions 7-12;
valid inputs selecting versions 13 or above are the ones that miss. -/
theorem C7_lookups_version_le_12 (m len : Nat) (hlen : 1 ≤ len)
    (hV : versionOf m len ≤ 12) :
    (blockInfoTable (versionOf m len)).isSome ∧
    (2 ≤ versionOf m len → (alignmentPatternsTable (versionOf m len)).isSome) ∧
    (7 ≤ versionOf m len →
      versionOf m len - 7 < versionInformationStrings.length) := by
  have h1 : 1 ≤ versionOf m len := by
    unfold versionOf
    split
    · omega
    · split <;> omega
  have key : ∀ V, V ≤ 12 → 1 ≤ V →
      (blockInfoTable V).isSome ∧
      (2 ≤ V → (alignmentPatternsTable V).isSome) ∧
      (7 ≤ V → V - 7 < versionInformationStrings.length) := by decide
  exact key _ hV h1

/-- Witness for C7: mode numeric, length 1 selects version 1, whose lookups
all succeed. -/
theorem C7_lookups_version_le_12_witness :
    (1 ≤ 1 ∧ versionOf numeric 1 ≤ 12) ∧
    ((blockInfoTable (versionOf numeric 1)).isSome ∧
      (2 ≤ versionOf numeric 1 →
        (alignmentPatternsTable (versionOf numeric 1)).isSome) ∧
      (7 ≤ versionOf numeric 1 →
        versionOf numeric 1 - 7 < versionInformationStrings.length)) :=
  ⟨⟨le_rfl, by decide⟩, C7_lookups_version_le_12 numeric 1 le_rfl (by decide)⟩

/-! Padding, chunking and round-trip lemmas (claims C2 and C8). -/

theorem padLeft_length (s : List Bool) (n : Nat) :
    (padLeft s n).length = max n s.length := by
  simp [padLeft]
  omega

theorem padRight_length (s : List Bool) (n : Nat) :
    (padRight s n).length = max n s.length := by
  simp [padRight]
  omega

theorem padRight_eq_append (s : List Bool) (n : Nat) :
    padRight s n = s ++ List.replicate (n - s.length) false := rfl

theorem parseBin_cons (x : Bool) (s : List Bool) :
    parseBin (x :: s) = (if x then 1 else 0) * 2 ^ s.length + parseBin s := by
  have h : x :: s = [x] ++ s := rfl
  rw [h, parseBin_append]
  congr 1
  cases x <;> rfl

theorem parseBin_lt (s : List Bool) : parseBin s < 2 ^ s.length := by
  induction s with
  | nil => simp [parseBin]
  | cons x s ih =>
    rw [parseBin_cons]
    simp only [List.length_cons, pow_succ]
    cases x <;> simp <;> omega

theorem parseBin_inj : ∀ (a b : List Bool), a.length = b.length →
    parseBin a = parseBin b → a = b
  | [], [], _, _ => rfl
  | [], _ :: _, hl, _ => by simp at hl
  | _ :: _, [], hl, _ => by simp at hl
  | x :: a, y :: b, hl, hp => by
    simp only [List.length_cons] at hl
    have hl2 : a.length = b.length := by omega
    rw [parseBin_cons, parseBin_cons] at hp
    have ha := parseBin_lt a
    have hb := parseBin_lt b
    rw [hl2] at hp ha
    have hxy : x = y ∧ parseBin a = parseBin b := by
      cases x <;> cases y <;> simp at hp ⊢ <;> omega
    rw [hxy.1, parseBin_inj a b hl2 hxy.2]

theorem parseBin_replicate_false (k : Nat) :
    parseBin (List.replicate k false) = 0 := by
  induction k with
  | zero => rfl
  | succ k ih => rw [List.replicate_succ, parseBin_cons, ih]; simp

theorem parseBin_padLeft (s : List Bool) (n : Nat) :
    parseBin (padLeft s n) = parseBin s := by
  rw [padLeft, parseBin_append, parseBin_replicate_false]
  simp

theorem byte_roundtrip (c : List Bool) (hc : c.length = 8) :
    padLeft (fmtBin (parseBin c)) 8 = c := by
  apply parseBin_inj
  · rw [padLeft_length, hc]
    have h1 : parseBin c < 2 ^ 8 := by
      have := parseBin_lt c
      rw [hc] at this
      exact this
    have h2 := fmtBin_length_le h1 (by omega)
    omega
  · rw [parseBin_padLeft, parseBin_fmtBin]

theorem byteArrayToEncoding_cons (x : Nat) (rest : List Nat) :
    byteArrayToEncoding (x :: rest) =
      padLeft (fmtBin x) 8 ++ byteArrayToEncoding rest := by
  simp [byteArrayToEncoding]

theorem encoding_roundtrip : ∀ s : List Bool, s.length % 8 = 0 →
    byteArrayToEncoding (encodingToByteArray s) = s
  | [], _ => rfl
  | [_], h => by simp at h
  | [_, _], h => by simp at h
  | [_, _, _], h => by simp at h
  | [_, _, _, _], h => by simp at h
  | [_, _, _, _, _], h => by simp at h
  | [_, _, _, _, _, _], h => by simp at h
  | [_, _, _, _, _, _, _], h => by simp at h
  | b1 :: b2 :: b3 :: b4 :: b5 :: b6 :: b7 :: b8 :: rest, h => by
    show byteArrayToEncoding (parseBin [b1, b2, b3, b4, b5, b6, b7, b8] ::
      encodingToByteArray rest) = _
    rw [byteArrayToEncoding_cons,
      byte_roundtrip [b1, b2, b3, b4, b5, b6, b7, b8] rfl,
      encoding_roundtrip rest (by simp at h ⊢; omega)]
    rfl

theorem encodingToByteArray_length : ∀ s : List Bool,
    (encodingToByteArray s).length = s.length / 8
  | [] => rfl
  | [_] => by simp [encodingToByteArray]
  | [_, _] => by simp [encodingToByteArray]
  | [_, _, _] => by simp [encodingToByteArray]
  | [_, _, _, _] => by simp [encodingToByteArray]
  | [_, _, _, _, _] => by simp [encodingToByteArray]
  | [_, _, _, _, _, _] => by simp [encodingToByteArray]
  | [_, _, _, _, _, _, _] => by simp [encodingToByteArray]
  | b1 :: b2 :: b3 :: b4 :: b5 :: b6 :: b7 :: b8 :: rest => by
    show (parseBin [b1, b2, b3, b4, b5, b6, b7, b8] ::
      encodingToByteArray rest).length = _
    rw [List.length_cons, encodingToByteArray_length rest]
    simp only [List.length_cons]
    omega

theorem padsFlatten_length (k : Nat) :
    (((List.range k).map (fun i => terminatorPads.getD (i % 2) [])).flatten).length
      = 8 * k := by
  induction k with
  | zero => rfl
  | succ k ih =>
    rw [List.range_succ, List.map_append, List.flatten_append, List.length_append,
      ih]
    simp only [List.map_cons, List.map_nil, List.flatten_cons, List.flatten_nil,
      List.append_nil]
    have h2 : k % 2 = 0 ∨ k % 2 = 1 := by omega
    rcases h2 with h | h <;> rw [h] <;> simp [terminatorPads] <;> omega

/-- Claim C2 (corrected), counterexample: on input "1" the assembled header
plus payload is 15 bits long; the code pads with a single zero bit to the
byte boundary and then starts the pad codewords, so byte 2 is 0xEC = 236,
whereas the claimed procedure (4 terminator zeros, then zeros to a byte
boundary) makes byte 2 the zero byte. -/
theorem C2_counterexample :
    (assemble ['1']).length = 15 ∧
    terminator (assemble ['1']) 1 ≠ claimTerminator (assemble ['1']) 1 ∧
    (terminator (assemble ['1']) 1).getD 2 0 = 236 ∧
    (claimTerminator (assemble ['1']) 1).getD 2 0 = 0 := by
  refine ⟨by decide, by decide, by decide, by decide⟩

theorem terminator_pads_aux (enc : List Bool) (version : Nat) (bi : BlockInfo)
    (hbi : blockInfoTable version = some bi)
    (h0 : 0 < enc.length) (hle : enc.length ≤ 8 * bi.total) :
    (terminator enc version).length = bi.total ∧
    byteArrayToEncoding (terminator enc version) =
      enc ++ List.replicate
          (if enc.length = 8 * bi.total then 0 else 8 - enc.length % 8) false ++
        ((List.range (bi.total -
            (enc.length + (if enc.length = 8 * bi.total then 0
              else 8 - enc.length % 8)) / 8)).map
          (fun i => terminatorPads.getD (i % 2) [])).flatten := by
  have hgo : blockInfoGo version = bi := by
    rw [blockInfoGo, hbi]
    rfl
  by_cases heq : enc.length = 8 * bi.total
  · have hterm : terminator enc version = encodingToByteArray enc := by
      rw [terminator, hgo, if_pos (by omega)]
    rw [hterm, if_pos heq]
    have hk : bi.total - (enc.length + 0) / 8 = 0 := by omega
    rw [hk]
    simp only [List.replicate_zero, List.range_zero, List.map_nil,
      List.flatten_nil, List.append_nil]
    exact ⟨by rw [encodingToByteArray_length]; omega,
      encoding_roundtrip enc (by omega)⟩
  · have hlt : enc.length < 8 * bi.total := by omega
    rw [if_neg heq]
    set rest := 8 - enc.length % 8 with hrest
    set numPads := bi.total - (enc.length + rest) / 8 with hnp
    have hterm : terminator enc version =
        encodingToByteArray (padRight enc (enc.length + rest) ++
          ((List.range (bi.total - (padRight enc (enc.length + rest)).length / 8)).map
            (fun i => terminatorPads.getD (i % 2) [])).flatten) := by
      rw [terminator, hgo, if_neg (by omega)]
    have hplen : (padRight enc (enc.length + rest)).length = enc.length + rest := by
      rw [padRight_length]
      omega
    rw [hplen] at hterm
    have hdiv : (enc.length + rest) % 8 = 0 := by omega
    have hdivle : (enc.length + rest) / 8 ≤ bi.total := by omega
    have hfull :
        (padRight enc (enc.length + rest) ++
          ((List.range numPads).map
            (fun i => terminatorPads.getD (i % 2) [])).flatten).length =
          8 * bi.total := by
      rw [List.length_append, hplen, padsFlatten_length]
      omega
    rw [hterm]
    constructor
    · rw [encodingToByteArray_length, hfull]
      omega
    · rw [encoding_roundtrip _ (by rw [hfull]; omega)]
      rw [padRight_eq_append]
      have hrepl : enc.length + rest - enc.length = rest := by omega
      rw [hrepl, List.append_assoc]

/-- Claim C2 (corrected): for a nonempty bit string within capacity, the
terminator step leaves a string of exactly 8·B bits untouched; otherwise it
appends exactly 8 - (L mod 8) zero bits - between one and eight, a full
zero byte when L is already a multiple of eight - and then the alternating
pad codewords 0xEC, 0x11, ... until exactly B codewords are present.  This
agrees with the claimed "up to 4 terminator zeros, then align to a byte"
rule exactly when L mod 8 is at most 4; when L mod 8 is 5, 6 or 7 the code
emits fewer than 4 terminator zeros even though room remains. -/
theorem C2_terminator_pads (enc : List Bool) (version : Nat) (bi : BlockInfo)
    (hbi : blockInfoTable version = some bi)
    (h0 : 0 < enc.length) (hle : enc.length ≤ 8 * bi.total) :
    (terminator enc version).length = bi.total ∧
    byteArrayToEncoding (terminator enc version) =
      enc ++ List.replicate
          (if enc.length = 8 * bi.total then 0 else 8 - enc.length % 8) false ++
        ((List.range (bi.total -
            (enc.length + (if enc.length = 8 * bi.total then 0
              else 8 - enc.length % 8)) / 8)).map
          (fun i => terminatorPads.getD (i % 2) [])).flatten :=
  terminator_pads_aux enc version bi hbi h0 hle

/-- Witness for C2: the terminator structure applied to a concrete four-bit
string at version 1. -/
theorem C2_terminator_pads_witness :
    (blockInfoTable 1 = some ⟨19, 7, 1, 19, 0, 0, 0⟩ ∧
      0 < ([true, false, true, true] : List Bool).length ∧
      ([true, false, true, true] : List Bool).length ≤ 8 * (19 : Nat)) ∧
    ((terminator [true, false, true, true] 1).length = 19 ∧
      byteArrayToEncoding (terminator [true, false, true, true] 1) =
        [true, false, true, true] ++ List.replicate
            (if ([true, false, true, true] : List Bool).length = 8 * 19 then 0
              else 8 - ([true, false, true, true] : List Bool).length % 8) false ++
          ((List.range (19 -
              (([true, false, true, true] : List Bool).length +
                (if ([true, false, true, true] : List Bool).length = 8 * 19 then 0
                  else 8 - ([true, false, true, true] : List Bool).length % 8)) / 8)).map
            (fun i => terminatorPads.getD (i % 2) [])).flatten) :=
  ⟨⟨rfl, by decide, by decide⟩,
    C2_terminator_pads [true, false, true, true] 1 ⟨19, 7, 1, 19, 0, 0, 0⟩ rfl
      (by decide) (by decide)⟩

/-! Payload and header length bounds (claim C8). -/

theorem parseDec_lt_any (s : List Char) : parseDec s < 10 ^ s.length := by
  unfold parseDec
  split
  · rename_i h
    have := parseDec_foldl_lt s h.2 0
    simpa using this
  · positivity

theorem encNumeric_length_le : ∀ data : List Char,
    (encNumeric data).length ≤ 10 * (data.length / 3) +
      (if data.length % 3 = 0 then 0 else if data.length % 3 = 1 then 4 else 7)
  | [] => by simp [encNumeric, stringToBinary]
  | [c] => by
    have hp : parseDec [c] < 2 ^ 4 := by
      have h := parseDec_lt_any [c]
      norm_num at h ⊢
      omega
    have hf := fmtBin_length_le hp (by omega)
    show (stringToBinary [c]).length ≤ _
    rw [stringToBinary, if_neg (by simp)]
    simpa using hf
  | [c1, c2] => by
    have hp : parseDec [c1, c2] < 2 ^ 7 := by
      have h := parseDec_lt_any [c1, c2]
      norm_num at h ⊢
      omega
    have hf := fmtBin_length_le hp (by omega)
    show (stringToBinary [c1, c2]).length ≤ _
    rw [stringToBinary, if_neg (by simp)]
    simpa using hf
  | c1 :: c2 :: c3 :: rest => by
    have hp : parseDec [c1, c2, c3] < 2 ^ 10 := by
      have h := parseDec_lt_any [c1, c2, c3]
      norm_num at h ⊢
      omega
    have h1 : (stringToBinary [c1, c2, c3]).length ≤ 10 := by
      rw [stringToBinary, if_neg (by simp)]
      exact fmtBin_length_le hp (by omega)
    have h2 := encNumeric_length_le rest
    show (stringToBinary [c1, c2, c3] ++ encNumeric rest).length ≤ _
    rw [List.length_append]
    simp only [List.length_cons]
    have hg1 : (rest.length + 1 + 1 + 1) / 3 = rest.length / 3 + 1 := by omega
    have hg2 : (rest.length + 1 + 1 + 1) % 3 = rest.length % 3 := by omega
    simp only [hg1, hg2]
    omega

set_option maxHeartbeats 1600000 in
theorem alphaTable_le (c : Char) : alphaTable c ≤ 44 := by
  unfold alphaTable
  split_ifs with h1 h2
  · have := digit_toNat h1
    omega
  all_goals omega

theorem encAlpha_length : ∀ data : List Char,
    (encAlpha data).length =
      11 * (data.length / 2) + (if data.length % 2 = 0 then 0 else 6)
  | [] => by simp [encAlpha]
  | [c] => by
    have hv : alphaTable c < 2 ^ 6 := by
      have := alphaTable_le c
      norm_num
      omega
    have hf := fmtBin_length_le hv (by omega)
    simp only [encAlpha]
    rw [padLeft_length]
    norm_num
    omega
  | c1 :: c2 :: rest => by
    have hv : alphaTable c1 * 45 + alphaTable c2 < 2 ^ 11 := by
      have h1 := alphaTable_le c1
      have h2 := alphaTable_le c2
      norm_num
      omega
    have hf := fmtBin_length_le hv (by omega)
    have h2 := encAlpha_length rest
    simp only [encAlpha]
    rw [List.length_append, padLeft_length, h2]
    simp only [List.length_cons]
    have hg1 : (rest.length + 1 + 1) / 2 = rest.length / 2 + 1 := by omega
    have hg2 : (rest.length + 1 + 1) % 2 = rest.length % 2 := by omega
    simp only [hg1, hg2]
    omega

theorem encBytes_length : ∀ data : List Char, (∀ c ∈ data, c.toNat < 128) →
    (encBytes data).length = 8 * data.length
  | [], _ => rfl
  | c :: rest, h => by
    have hv : c.toNat < 2 ^ 8 := by
      have := h c (by simp)
      norm_num
      omega
    have h1 : (padLeft (fmtBin c.toNat) 8).length = 8 := by
      rw [padLeft_length]
      have := fmtBin_length_le hv (by omega)
      omega
    have h2 := encBytes_length rest (fun x hx => h x (by simp [hx]))
    show (padLeft (fmtBin c.toNat) 8 ++ encBytes rest).length = _
    rw [List.length_append, h1, h2]
    simp only [List.length_cons]
    ring

theorem versionOf_pos (m len : Nat) : 1 ≤ versionOf m len := by
  unfold versionOf
  split
  · omega
  · split <;> omega

theorem versionOf_eq (m len : Nat) :
    versionOf m len = binarySearch (capTable m) len + 1 := by
  unfold versionOf capTable
  by_cases h1 : m = numeric
  · rw [if_pos h1, if_pos h1]
  · rw [if_neg h1, if_neg h1]
    by_cases h2 : m = alpha
    · rw [if_pos h2, if_pos h2]
    · rw [if_neg h2, if_neg h2]

theorem binarySearchLoop_all_lt (array : List Nat) (value : Nat)
    (hall : ∀ i, i < 40 → array.getD i 0 < value) :
    ∀ fuel low high, high - low ≤ fuel → low ≤ high → high ≤ 40 →
      binarySearchLoop array value fuel low high = high := by
  intro fuel
  induction fuel with
  | zero =>
    intro low high h1 h2 h3
    have : low = high := by omega
    simpa [binarySearchLoop] using this
  | succ fuel ih =>
    intro low high h1 h2 h3
    simp only [binarySearchLoop]
    split
    · rename_i hlh
      rw [if_pos (hall _ (by omega))]
      exact ih _ _ (by omega) (by omega) h3
    · omega

theorem versionOf_le14_cap (m len : Nat) (h14 : versionOf m len ≤ 14)
    (hl : 1 ≤ len) :
    len ≤ (capTable m).getD (versionOf m len - 1) 0 ∧
      versionOf m len - 1 ≤ 13 := by
  have hv := versionOf_eq m len
  have hbs : binarySearch (capTable m) len ≤ 13 := by omega
  have hlb : binarySearch (capTable m) len = lowerBound len (capTable m) := by
    unfold capTable at *
    by_cases h1 : m = numeric
    · rw [if_pos h1] at *
      exact binarySearch_sorted _ _ maxCharsNumeric_sorted (by decide)
    · rw [if_neg h1] at *
      by_cases h2 : m = alpha
      · rw [if_pos h2] at *
        exact binarySearch_sorted _ _ maxCharsAlpha_sorted (by decide)
      · rw [if_neg h2] at *
        apply maxCharsBytes_bs_eq_lb
        by_contra hge
        have hall : ∀ i, i < 40 → maxCharsBytes.getD i 0 < len := by
          intro i hi
          have := maxCharsBytes_le i hi
          omega
        have h40 : binarySearch maxCharsBytes len = 40 :=
          binarySearchLoop_all_lt maxCharsBytes len hall 40 0 40 (by omega)
            (by omega) (by omega)
        omega
  have hcaplen : (capTable m).length = 40 := by
    unfold capTable
    by_cases h1 : m = numeric
    · rw [if_pos h1]; decide
    · rw [if_neg h1]
      by_cases h2 : m = alpha
      · rw [if_pos h2]; decide
      · rw [if_neg h2]; decide
  have hge := lowerBound_ge_val len (capTable m) (by rw [hcaplen]; omega)
  rw [hv, hlb]
  constructor
  · simpa using hge
  · omega

theorem blockInfoGo_some : ∀ V, V ≤ 14 → 1 ≤ V →
    blockInfoTable V = some (blockInfoGo V) := by decide

theorem numeric_capacity : ∀ V, V ≤ 14 → 1 ≤ V →
    maxCharsNumeric.getD (V - 1) 0 < 2 ^ (if V ≤ 9 then 10 else 12) ∧
    4 + (if V ≤ 9 then 10 else 12) +
      (10 * (maxCharsNumeric.getD (V - 1) 0 / 3) +
        (if maxCharsNumeric.getD (V - 1) 0 % 3 = 0 then 0
          else if maxCharsNumeric.getD (V - 1) 0 % 3 = 1 then 4 else 7)) ≤
      8 * (blockInfoGo V).total := by decide

theorem alpha_capacity : ∀ V, V ≤ 14 → 1 ≤ V →
    maxCharsAlpha.getD (V - 1) 0 < 2 ^ (if V ≤ 9 then 9 else 11) ∧
    4 + (if V ≤ 9 then 9 else 11) +
      (11 * (maxCharsAlpha.getD (V - 1) 0 / 2) +
        (if maxCharsAlpha.getD (V - 1) 0 % 2 = 0 then 0 else 6)) ≤
      8 * (blockInfoGo V).total := by decide

theorem bytes_capacity : ∀ V, V ≤ 14 → 1 ≤ V →
    maxCharsBytes.getD (V - 1) 0 < 2 ^ (if V ≤ 9 then 8 else 16) ∧
    4 + (if V ≤ 9 then 8 else 16) + 8 * maxCharsBytes.getD (V - 1) 0 ≤
      8 * (blockInfoGo V).total := by decide

theorem terminator_zero_blocks (enc : List Bool) (version : Nat)
    (hz : (blockInfoGo version).total = 0) (h0 : 0 < enc.length) :
    (terminator enc version).length = enc.length / 8 + 1 := by
  simp only [terminator]
  rw [hz, if_neg (by omega)]
  rw [encodingToByteArray_length, List.length_append, padRight_length,
    padsFlatten_length]
  have hz2 : ∀ k : Nat, 0 - k = 0 := fun k => Nat.zero_sub k
  rw [hz2]
  simp only [Nat.mul_zero, Nat.add_zero]
  omega

theorem numericBound_mono {a b : Nat} (h : a ≤ b) :
    10 * (a / 3) + (if a % 3 = 0 then 0 else if a % 3 = 1 then 4 else 7) ≤
      10 * (b / 3) + (if b % 3 = 0 then 0 else if b % 3 = 1 then 4 else 7) := by
  rcases (by omega : a % 3 = 0 ∨ a % 3 = 1 ∨ a % 3 = 2) with h1 | h1 | h1 <;>
    rcases (by omega : b % 3 = 0 ∨ b % 3 = 1 ∨ b % 3 = 2) with h2 | h2 | h2 <;>
      simp only [h1, h2] <;> norm_num <;> omega

theorem alphaBound_mono {a b : Nat} (h : a ≤ b) :
    11 * (a / 2) + (if a % 2 = 0 then 0 else 6) ≤
      11 * (b / 2) + (if b % 2 = 0 then 0 else 6) := by
  rcases (by omega : a % 2 = 0 ∨ a % 2 = 1) with h1 | h1 <;>
    rcases (by omega : b % 2 = 0 ∨ b % 2 = 1) with h2 | h2 <;>
      simp only [h1, h2] <;> norm_num <;> omega

/-- Claim C8 (corrected), counterexample: the valid 520-byte input of
letters "a" selects version 15, whose blockInfo entry is missing (total 0);
the assembled 4180-bit string is padded to 523 codewords, not
8·blockInfo[V][0] = 0 bits. -/
theorem C8_counterexample :
    mode (List.replicate 520 'a') = byteMode ∧
    versionOf byteMode 520 = 15 ∧
    (encodingOf (List.replicate 520 'a')).length = 523 ∧
    (blockInfoGo 15).total = 0 ∧
    (encodingOf (List.replicate 520 'a')).length ≠
      (blockInfoGo (versionOf (mode (List.replicate 520 'a'))
        (List.replicate 520 'a').length)).total := by
  have hm := mode_rep520
  have hlen : (List.replicate 520 'a').length = 520 := List.length_replicate ..
  have hV : versionOf byteMode 520 = 15 := by decide
  have hbytes : (encBytes (List.replicate 520 'a')).length = 8 * 520 := by
    rw [encBytes_length _ (fun c hc => by
      rw [List.eq_of_mem_replicate hc]; decide), hlen]
  have hassemble : (assemble (List.replicate 520 'a')).length = 4180 := by
    simp only [assemble]
    rw [hm, hlen, if_neg (by decide), if_neg (by decide)]
    rw [List.length_append, List.length_append, hbytes, hV]
    rw [show (indCount 520 byteMode 15).length = 16 from by decide]
    rfl
  have hencoding : (encodingOf (List.replicate 520 'a')).length = 523 := by
    show (terminator (assemble (List.replicate 520 'a'))
      (versionOf (mode (List.replicate 520 'a'))
        (List.replicate 520 'a').length)).length = 523
    rw [hm, hlen, hV]
    rw [terminator_zero_blocks _ _ (by decide) (by rw [hassemble]; omega)]
    rw [hassemble]
  refine ⟨hm, hV, hencoding, by decide, ?_⟩
  rw [hencoding, hm, hlen, hV]
  decide

theorem encoding_length_aux (data : List Char) (hne : data ≠ [])
    (hascii : ∀ c ∈ data, c.toNat < 128)
    (hV : versionOf (mode data) data.length ≤ 14) :
    (encodingOf data).length =
      (blockInfoGo (versionOf (mode data) data.length)).total := by
  have hpos : 1 ≤ versionOf (mode data) data.length := versionOf_pos _ _
  have hlenpos : 1 ≤ data.length := by
    rcases data with _ | ⟨c, d⟩
    · exact absurd rfl hne
    · simp
  obtain ⟨hcap, hbs13⟩ := versionOf_le14_cap (mode data) data.length hV hlenpos
  have hsome := blockInfoGo_some (versionOf (mode data) data.length) hV hpos
  have hassemble : 0 < (assemble data).length ∧
      (assemble data).length ≤
        8 * (blockInfoGo (versionOf (mode data) data.length)).total := by
    by_cases hm1 : mode data = numeric
    · have ha : assemble data = indNumeric ++
          indCount data.length (mode data) (versionOf (mode data) data.length) ++
          encNumeric data := by
        simp only [assemble]
        rw [if_pos hm1]
      have hct : capTable (mode data) = maxCharsNumeric := by
        unfold capTable
        rw [if_pos hm1]
      rw [hct] at hcap
      obtain ⟨hw, hcap8⟩ :=
        numeric_capacity (versionOf (mode data) data.length) hV hpos
      have hlenw : data.length <
          2 ^ (if versionOf (mode data) data.length ≤ 9 then 10 else 12) := by
        omega
      have hcount : (indCount data.length (mode data)
          (versionOf (mode data) data.length)).length =
          (if versionOf (mode data) data.length ≤ 9 then 10 else 12) := by
        unfold indCount
        by_cases h9 : versionOf (mode data) data.length ≤ 9
        · rw [if_pos ⟨hpos, h9⟩, if_pos hm1, padLeft_length]
          rw [if_pos h9] at hlenw ⊢
          have := fmtBin_length_le hlenw (by omega)
          omega
        · rw [if_neg (fun h => h9 h.2), if_pos ⟨by omega, by omega⟩,
            if_pos hm1, padLeft_length]
          rw [if_neg h9] at hlenw ⊢
          have := fmtBin_length_le hlenw (by omega)
          omega
      have hpay := encNumeric_length_le data
      have hmono := numericBound_mono hcap
      constructor
      · rw [ha, List.length_append, List.length_append]
        have : (indNumeric : List Bool).length = 4 := rfl
        omega
      · rw [ha, List.length_append, List.length_append, hcount]
        have hind : (indNumeric : List Bool).length = 4 := rfl
        rw [hind]
        omega
    · by_cases hm2 : mode data = alpha
      · have ha : assemble data = indAlpha ++
            indCount data.length (mode data) (versionOf (mode data) data.length) ++
            encAlpha data := by
          simp only [assemble]
          rw [if_neg hm1, if_pos hm2]
        have hct : capTable (mode data) = maxCharsAlpha := by
          unfold capTable
          rw [if_neg hm1, if_pos hm2]
        rw [hct] at hcap
        obtain ⟨hw, hcap8⟩ :=
          alpha_capacity (versionOf (mode data) data.length) hV hpos
        have hlenw : data.length <
            2 ^ (if versionOf (mode data) data.length ≤ 9 then 9 else 11) := by
          omega
        have hcount : (indCount data.length (mode data)
            (versionOf (mode data) data.length)).length =
            (if versionOf (mode data) data.length ≤ 9 then 9 else 11) := by
          unfold indCount
          by_cases h9 : versionOf (mode data) data.length ≤ 9
          · rw [if_pos ⟨hpos, h9⟩, if_neg (by rw [hm2]; decide), if_pos hm2,
              padLeft_length]
            rw [if_pos h9] at hlenw ⊢
            have := fmtBin_length_le hlenw (by omega)
            omega
          · rw [if_neg (fun h => h9 h.2), if_pos ⟨by omega, by omega⟩,
              if_neg (by rw [hm2]; decide), if_pos hm2, padLeft_length]
            rw [if_neg h9] at hlenw ⊢
            have := fmtBin_length_le hlenw (by omega)
            omega
        have hpay := encAlpha_length data
        have hmono := alphaBound_mono hcap
        constructor
        · rw [ha, List.length_append, List.length_append]
          have : (indAlpha : List Bool).length = 4 := rfl
          omega
        · rw [ha, List.length_append, List.length_append, hcount]
          have hind : (indAlpha : List Bool).length = 4 := rfl
          rw [hind]
          omega
      · have ha : assemble data = indBytes ++
            indCount data.length (mode data) (versionOf (mode data) data.length) ++
            encBytes data := by
          simp only [assemble]
          rw [if_neg hm1, if_neg hm2]
        have hct : capTable (mode data) = maxCharsBytes := by
          unfold capTable
          rw [if_neg hm1, if_neg hm2]
        rw [hct] at hcap
        obtain ⟨hw, hcap8⟩ :=
          bytes_capacity (versionOf (mode data) data.length) hV hpos
        have hlenw : data.length <
            2 ^ (if versionOf (mode data) data.length ≤ 9 then 8 else 16) := by
          omega
        have hcount : (indCount data.length (mode data)
            (versionOf (mode data) data.length)).length =
            (if versionOf (mode data) data.length ≤ 9 then 8 else 16) := by
          unfold indCount
          by_cases h9 : versionOf (mode data) data.length ≤ 9
          · rw [if_pos ⟨hpos, h9⟩, if_neg hm1, if_neg hm2, padLeft_length]
            rw [if_pos h9] at hlenw ⊢
            have := fmtBin_length_le hlenw (by omega)
            omega
          · rw [if_neg (fun h => h9 h.2), if_pos ⟨by omega, by omega⟩,
              if_neg hm1, if_neg hm2, padLeft_length]
            rw [if_neg h9] at hlenw ⊢
            have := fmtBin_length_le hlenw (by omega)
            omega
        have hpay := encBytes_length data hascii
        constructor
        · rw [ha, List.length_append, List.length_append]
          have : (indBytes : List Bool).length = 4 := rfl
          omega
        · rw [ha, List.length_append, List.length_append, hcount]
          have hind : (indBytes : List Bool).length = 4 := rfl
          rw [hind]
          omega
  obtain ⟨h0, hle⟩ := hassemble
  exact (terminator_pads_aux (assemble data) (versionOf (mode data) data.length)
    (blockInfoGo (versionOf (mode data) data.length)) hsome h0 hle).1

/-- Claim C8 (corrected): for every nonempty single-byte (ASCII) input whose
selected version has a blockInfo entry (version at most 14), the assembled
and padded data encoding holds exactly blockInfo[V].total codewords, that
is 8·blockInfo[V][0] bits.  (Valid inputs selecting versions 15-40, whose
blockInfo entries are missing, violate the claim as stated; so do inputs
whose UTF-8 decoding produces runes above one byte, since encBytes then
emits more than 8 bits per rune.) -/
theorem C8_encoding_length (data : List Char) (hne : data ≠ [])
    (hascii : ∀ c ∈ data, c.toNat < 128)
    (hV : versionOf (mode data) data.length ≤ 14) :
    (encodingOf data).length =
      (blockInfoGo (versionOf (mode data) data.length)).total :=
  encoding_length_aux data hne hascii hV

/-- Witness for C8: the input "1" (numeric, version 1) whose encoding holds
exactly 19 codewords. -/
theorem C8_encoding_length_witness :
    ((['1'] : List Char) ≠ [] ∧ (∀ c ∈ (['1'] : List Char), c.toNat < 128) ∧
      versionOf (mode ['1']) (['1'] : List Char).length ≤ 14) ∧
    (encodingOf ['1']).length =
      (blockInfoGo (versionOf (mode ['1']) (['1'] : List Char).length)).total :=
  ⟨⟨by decide, by decide, by decide⟩,
    C8_encoding_length ['1'] (by decide) (by decide) (by decide)⟩

/-! Interleaving length lemmas (claim C10). -/

theorem foldl_preserve {α β : Type} (P : α → Prop) (f : α → β → α)
    (hstep : ∀ a b, P a → P (f a b)) :
    ∀ (l : List β) (init : α), P init → P (l.foldl f init)
  | [], _, h => h
  | b :: l, init, h => foldl_preserve P f hstep l (f init b) (hstep init b h)

theorem gfPolyMulX_length (p : List Nat) (a : Nat) :
    (gfPolyMulX p a).length = p.length + 1 := by
  simp [gfPolyMulX]

theorem rsGenerator_length (n : Nat) : (rsGenerator n).length = n + 1 := by
  induction n with
  | zero => rfl
  | succ n ih => simp [rsGenerator, gfPolyMulX_length, ih]

theorem eccLoop_length (genTail : List Nat) : ∀ (data rem : List Nat),
    rem.length = genTail.length →
    (eccLoop genTail rem data).length = genTail.length
  | [], _, h => h
  | b :: rest, rem, h => by
    show (eccLoop genTail
      (List.zipWith (fun u v => u ^^^ v) (rem.tail ++ [0])
        (genTail.map (fun c => gfMul (b ^^^ rem.getD 0 0) c))) rest).length =
      genTail.length
    apply eccLoop_length genTail rest
    rw [List.length_zipWith, List.length_append, List.length_map,
      List.length_tail]
    simp only [List.length_cons, List.length_nil, inf_eq_min]
    omega

theorem rsECC_length (numErr : Nat) (data : List Nat) :
    (rsECC numErr data).length = numErr := by
  unfold rsECC
  have h1 : ((rsGenerator numErr).tail).length = numErr := by
    rw [List.length_tail, rsGenerator_length]
    omega
  rw [eccLoop_length _ data _ (by rw [List.length_replicate, h1])]
  exact h1

theorem gfExp_length : gfExp.length = 256 := by decide

theorem gfExp_getD_lt : ∀ i, gfExp.getD i 0 < 256 := by
  intro i
  by_cases h : i < 256
  · exact (by decide : ∀ j, j < 256 → gfExp.getD j 0 < 256) i h
  · rw [List.getD_eq_default _ _ (by rw [gfExp_length]; omega)]
    omega

theorem gfMul_lt (a b : Nat) : gfMul a b < 256 := by
  unfold gfMul
  split
  · omega
  · exact gfExp_getD_lt _

theorem xor_lt_256 {a b : Nat} (ha : a < 256) (hb : b < 256) : a ^^^ b < 256 := by
  have h1 : a < 2 ^ 8 := by norm_num; omega
  have h2 : b < 2 ^ 8 := by norm_num; omega
  have h3 := Nat.xor_lt_two_pow h1 h2
  norm_num at h3
  exact h3

theorem zipWith_xor_lt : ∀ (u v : List Nat), (∀ a ∈ u, a < 256) →
    (∀ b ∈ v, b < 256) →
    ∀ x ∈ List.zipWith (fun a b => a ^^^ b) u v, x < 256
  | [], _, _, _, x, hx => by simp at hx
  | _ :: _, [], _, _, x, hx => by simp at hx
  | a :: u, b :: v, hu, hv, x, hx => by
    simp only [List.zipWith_cons_cons, List.mem_cons] at hx
    rcases hx with rfl | hx
    · exact xor_lt_256 (hu a (by simp)) (hv b (by simp))
    · exact zipWith_xor_lt u v (fun y hy => hu y (by simp [hy]))
        (fun y hy => hv y (by simp [hy])) x hx

theorem eccLoop_lt (genTail : List Nat) : ∀ (data rem : List Nat),
    (∀ x ∈ rem, x < 256) → ∀ y ∈ eccLoop genTail rem data, y < 256
  | [], _, hrem, y, hy => hrem y hy
  | b :: rest, rem, hrem, y, hy => by
    simp only [eccLoop] at hy
    apply eccLoop_lt genTail rest _ _ y hy
    intro z hz
    apply zipWith_xor_lt _ _ _ _ z hz
    · intro w hw
      rcases List.mem_append.mp hw with h | h
      · exact hrem w (List.mem_of_mem_tail h)
      · simp at h
        omega
    · intro w hw
      obtain ⟨c, hc, rfl⟩ := List.mem_map.mp hw
      exact gfMul_lt _ _

theorem rsECC_lt (numErr : Nat) (data : List Nat) :
    ∀ y ∈ rsECC numErr data, y < 256 := by
  apply eccLoop_lt _ data
  intro x hx
  rw [List.eq_of_mem_replicate hx]
  omega

theorem sum_map_const {α : Type} : ∀ (l : List α) (c : Nat),
    (l.map (fun _ => c)).sum = l.length * c
  | [], _ => by simp
  | x :: l, c => by
    simp only [List.map_cons, List.sum_cons, List.length_cons, sum_map_const l c]
    ring

theorem correction_length (array : List Nat) (numErr numB1 numB2 numW1 numW2 : Nat) :
    (correction array numErr numB1 numB2 numW1 numW2).length =
      numErr * (numB1 + numB2) := by
  unfold correction
  rw [List.length_flatten, List.map_map]
  have heq : (List.length ∘ fun i =>
      if i < numB1 then rsECC numErr ((array.drop (i * numW1)).take numW1)
      else rsECC numErr
        ((array.drop (numB1 * numW1 + (i - numB1) * numW2)).take numW2)) =
      fun _ => numErr := by
    funext i
    simp only [Function.comp]
    split <;> exact rsECC_length _ _
  rw [heq, sum_map_const, List.length_range]
  ring

theorem correction_lt (array : List Nat) (numErr numB1 numB2 numW1 numW2 : Nat) :
    ∀ x ∈ correction array numErr numB1 numB2 numW1 numW2, x < 256 := by
  intro x hx
  unfold correction at hx
  rw [List.mem_flatten] at hx
  obtain ⟨s, hs, hxs⟩ := hx
  rw [List.mem_map] at hs
  obtain ⟨i, hi, rfl⟩ := hs
  split at hxs <;> exact rsECC_lt _ _ x hxs

theorem getD_lt_of_forall (l : List Nat) (h : ∀ x ∈ l, x < 256) (i : Nat) :
    l.getD i 0 < 256 := by
  by_cases hi : i < l.length
  · rw [List.getD_eq_getElem l 0 hi]
    exact h _ (List.getElem_mem hi)
  · rw [List.getD_eq_default _ _ (by omega)]
    omega

theorem writeColumn_length (array : List Nat) (words blocks : Nat)
    (p : List Nat × Nat × Nat) :
    (writeColumn array words blocks p).1.length = p.1.length := by
  unfold writeColumn
  apply foldl_preserve (fun (q : List Nat × Nat × Nat) => q.1.length = p.1.length)
  · intro q b hq
    simp [List.length_set, hq]
  · rfl

theorem writeColumn_lt (array : List Nat) (words blocks : Nat)
    (p : List Nat × Nat × Nat) (hp : ∀ v ∈ p.1, v < 256)
    (ha : ∀ v ∈ array, v < 256) :
    ∀ v ∈ (writeColumn array words blocks p).1, v < 256 := by
  unfold writeColumn
  apply foldl_preserve (fun (q : List Nat × Nat × Nat) => ∀ v ∈ q.1, v < 256)
  · intro q b hq v hv
    rcases List.mem_or_eq_of_mem_set hv with h | h
    · exact hq v h
    · rw [h]
      exact getD_lt_of_forall array ha _
  · exact hp

theorem interleaveData_length (array : List Nat) (b1 b2 w1 w2 : Nat) :
    (interleaveData array b1 b2 w1 w2).length = array.length := by
  unfold interleaveData
  apply foldl_preserve
    (fun (st : List Nat × Nat × Nat × Nat) => st.1.length = array.length)
  · intro st i hst
    dsimp only
    by_cases h1 : st.2.2.1 < w1 <;> by_cases h2 : st.2.2.2 < w2 <;>
      simp [h1, h2, writeColumn_length, hst]
  · simp

theorem interleaveData_lt (array : List Nat) (b1 b2 w1 w2 : Nat)
    (ha : ∀ v ∈ array, v < 256) :
    ∀ v ∈ interleaveData array b1 b2 w1 w2, v < 256 := by
  unfold interleaveData
  apply foldl_preserve
    (fun (st : List Nat × Nat × Nat × Nat) => ∀ v ∈ st.1, v < 256)
  · intro st i hst
    dsimp only
    by_cases h1 : st.2.2.1 < w1 <;> by_cases h2 : st.2.2.2 < w2 <;>
      simp only [h1, h2, if_true, if_false, ite_true, ite_false] <;>
      repeat
        first
        | exact hst
        | exact writeColumn_lt array _ _ _ (writeColumn_lt array _ _ _ hst ha) ha
        | exact writeColumn_lt array _ _ _ hst ha
  · intro v hv
    rw [List.eq_of_mem_replicate hv]
    omega

theorem interleaveError_length (array : List Nat) (numErr numB1 numB2 : Nat) :
    (interleaveError array numErr numB1 numB2).length = array.length := by
  unfold interleaveError
  apply foldl_preserve (fun (p : List Nat × Nat) => p.1.length = array.length)
  · intro p i hp
    apply foldl_preserve (fun (q : List Nat × Nat) => q.1.length = array.length)
    · intro q j hq
      simp [List.length_set, hq]
    · exact hp
  · simp

theorem interleaveError_lt (array : List Nat) (numErr numB1 numB2 : Nat)
    (ha : ∀ v ∈ array, v < 256) :
    ∀ v ∈ interleaveError array numErr numB1 numB2, v < 256 := by
  unfold interleaveError
  apply foldl_preserve (fun (p : List Nat × Nat) => ∀ v ∈ p.1, v < 256)
  · intro p i hp
    apply foldl_preserve (fun (q : List Nat × Nat) => ∀ v ∈ q.1, v < 256)
    · intro q j hq v hv
      rcases List.mem_or_eq_of_mem_set hv with h | h
      · exact hq v h
      · rw [h]
        exact getD_lt_of_forall array ha _
    · exact hp
  · intro v hv
    rw [List.eq_of_mem_replicate hv]
    omega

theorem byteArrayToEncoding_length : ∀ a : List Nat, (∀ x ∈ a, x < 256) →
    (byteArrayToEncoding a).length = 8 * a.length
  | [], _ => rfl
  | x :: rest, h => by
    rw [byteArrayToEncoding_cons, List.length_append, padLeft_length,
      byteArrayToEncoding_length rest (fun y hy => h y (by simp [hy]))]
    have hx : x < 2 ^ 8 := by
      have := h x (by simp)
      norm_num
      omega
    have := fmtBin_length_le hx (by omega)
    simp only [List.length_cons]
    omega

theorem encodingToByteArray_lt : ∀ s : List Bool, ∀ x ∈ encodingToByteArray s,
    x < 256
  | [], x, hx => by simp [encodingToByteArray] at hx
  | [_], x, hx => by simp [encodingToByteArray] at hx
  | [_, _], x, hx => by simp [encodingToByteArray] at hx
  | [_, _, _], x, hx => by simp [encodingToByteArray] at hx
  | [_, _, _, _], x, hx => by simp [encodingToByteArray] at hx
  | [_, _, _, _, _], x, hx => by simp [encodingToByteArray] at hx
  | [_, _, _, _, _, _], x, hx => by simp [encodingToByteArray] at hx
  | [_, _, _, _, _, _, _], x, hx => by simp [encodingToByteArray] at hx
  | b1 :: b2 :: b3 :: b4 :: b5 :: b6 :: b7 :: b8 :: rest, x, hx => by
    have hshape : encodingToByteArray
        (b1 :: b2 :: b3 :: b4 :: b5 :: b6 :: b7 :: b8 :: rest) =
        parseBin [b1, b2, b3, b4, b5, b6, b7, b8] :: encodingToByteArray rest := rfl
    rw [hshape, List.mem_cons] at hx
    rcases hx with rfl | hx
    · have := parseBin_lt [b1, b2, b3, b4, b5, b6, b7, b8]
      norm_num at this
      omega
    · exact encodingToByteArray_lt rest x hx

theorem terminator_lt (enc : List Bool) (version : Nat) :
    ∀ x ∈ terminator enc version, x < 256 := by
  intro x hx
  simp only [terminator] at hx
  split at hx <;> exact encodingToByteArray_lt _ x hx

theorem interleave_length (encoding : List Nat) (V : Nat)
    (hb : ∀ x ∈ encoding, x < 256) :
    (interleave encoding V).length =
      8 * encoding.length +
        8 * ((blockInfoGo V).errors *
          ((blockInfoGo V).blocks1 + (blockInfoGo V).blocks2)) +
        (blockInfoGo V).remainder := by
  simp only [interleave]
  rw [padRight_length, List.length_append]
  rw [byteArrayToEncoding_length _ (interleaveData_lt _ _ _ _ _ hb)]
  rw [byteArrayToEncoding_length _
    (interleaveError_lt _ _ _ _ (correction_lt _ _ _ _ _ _))]
  rw [interleaveData_length, interleaveError_length, correction_length]
  omega

theorem blockInfo_total_eq : ∀ V, V ≤ 14 → 1 ≤ V →
    (blockInfoGo V).total =
      (blockInfoGo V).blocks1 * (blockInfoGo V).words1 +
        (blockInfoGo V).blocks2 * (blockInfoGo V).words2 := by decide

set_option maxHeartbeats 3200000 in
theorem countData_small : ∀ V, V ≤ 6 → 1 ≤ V →
    countData (buildBaseCanvas V) =
      8 * ((blockInfoGo V).blocks1 * (blockInfoGo V).words1 +
        (blockInfoGo V).blocks2 * (blockInfoGo V).words2) +
      8 * ((blockInfoGo V).errors *
        ((blockInfoGo V).blocks1 + (blockInfoGo V).blocks2)) +
      (blockInfoGo V).remainder := by decide

set_option maxHeartbeats 6400000 in
theorem countData_mid : ∀ V, V ≤ 12 → 7 ≤ V →
    countData (buildBaseCanvas V) =
      8 * ((blockInfoGo V).blocks1 * (blockInfoGo V).words1 +
        (blockInfoGo V).blocks2 * (blockInfoGo V).words2) +
      8 * ((blockInfoGo V).errors *
        ((blockInfoGo V).blocks1 + (blockInfoGo V).blocks2)) +
      (blockInfoGo V).remainder := by decide

set_option maxHeartbeats 3200000 in
/-- Claim C10 (corrected), counterexample: the valid 400-byte input selects
version 13, which has a blockInfo entry, but the alignment-pattern table has
no entry for version 13, so no alignment patterns are drawn: 4396 cells stay
data = true while the interleaved bit string holds only 4256 bits - the
zig-zag walk runs past the end of the stream (an index-out-of-range panic in
drawDataBits). -/
theorem C10_counterexample :
    mode (List.replicate 400 'a') = byteMode ∧
    versionOf byteMode 400 = 13 ∧
    (blockInfoTable 13).isSome ∧
    countData (buildBaseCanvas 13) = 4396 ∧
    (interleave (encodingOf (List.replicate 400 'a')) 13).length = 4256 ∧
    countData (buildBaseCanvas 13) ≠
      (interleave (encodingOf (List.replicate 400 'a')) 13).length := by
  have hm : mode (List.replicate 400 'a') = byteMode := mode_replicate_a 398
  have hlen : (List.replicate 400 'a').length = 400 := List.length_replicate ..
  have hV : versionOf byteMode 400 = 13 := by decide
  have hne : (List.replicate 400 'a') ≠ [] := by
    intro h
    have := congrArg List.length h
    rw [List.length_replicate] at this
    exact absurd this (by decide)
  have hasc : ∀ c ∈ List.replicate 400 'a', c.toNat < 128 := fun c hc => by
    rw [List.eq_of_mem_replicate hc]
    decide
  have hgo : (encodingOf (List.replicate 400 'a')).length = 428 := by
    have h := encoding_length_aux (List.replicate 400 'a') hne hasc
      (by rw [hm, hlen, hV]; omega)
    rw [hm, hlen, hV] at h
    rw [h]
    decide
  have hbytes : ∀ x ∈ encodingOf (List.replicate 400 'a'), x < 256 :=
    terminator_lt (assemble (List.replicate 400 'a')) _
  have hil : (interleave (encodingOf (List.replicate 400 'a')) 13).length =
      4256 := by
    rw [interleave_length _ _ hbytes, hgo]
    decide
  have hcnt : countData (buildBaseCanvas 13) = 4396 := by decide
  exact ⟨hm, hV, by decide, hcnt, hil, by rw [hcnt, hil]; decide⟩

/-- Claim C10 (corrected): for every nonempty ASCII input whose selected
version is at most 12 (so that the block-info and alignment-pattern tables
both have entries), the number of cells still marked data = true after all
function patterns and reservations equals the length of the interleaved bit
string, which in turn is 8·(B1·W1 + B2·W2) + 8·E·(B1 + B2) + R; the zig-zag
walk therefore consumes exactly the whole stream.  Versions 13 and 14 have a
block-info entry but no alignment patterns, and there the counts differ. -/
theorem C10_data_cells (data : List Char) (hne : data ≠ [])
    (hascii : ∀ c ∈ data, c.toNat < 128)
    (hV : versionOf (mode data) data.length ≤ 12) :
    countData (buildBaseCanvas (versionOf (mode data) data.length)) =
      (interleave (encodingOf data) (versionOf (mode data) data.length)).length ∧
    (interleave (encodingOf data) (versionOf (mode data) data.length)).length =
      8 * ((blockInfoGo (versionOf (mode data) data.length)).blocks1 *
          (blockInfoGo (versionOf (mode data) data.length)).words1 +
        (blockInfoGo (versionOf (mode data) data.length)).blocks2 *
          (blockInfoGo (versionOf (mode data) data.length)).words2) +
      8 * ((blockInfoGo (versionOf (mode data) data.length)).errors *
        ((blockInfoGo (versionOf (mode data) data.length)).blocks1 +
          (blockInfoGo (versionOf (mode data) data.length)).blocks2)) +
      (blockInfoGo (versionOf (mode data) data.length)).remainder := by
  have hpos := versionOf_pos (mode data) data.length
  have hlenenc := encoding_length_aux data hne hascii (by omega)
  have hbytes : ∀ x ∈ encodingOf data, x < 256 :=
    terminator_lt (assemble data) _
  have hil := interleave_length (encodingOf data)
    (versionOf (mode data) data.length) hbytes
  rw [hlenenc, blockInfo_total_eq _ (by omega) hpos] at hil
  refine ⟨?_, hil⟩
  rw [hil]
  by_cases h7 : 7 ≤ versionOf (mode data) data.length
  · exact countData_mid _ hV h7
  · exact countData_small _ (by omega) hpos

/-- Claim C4 (code bug): the second format-information loop skips iteration
i = 2 entirely (`if i != 2`), so format bit 9 is never written and bits
10-14 land one row too low.  On a fresh 21-module canvas: with mask 2
(format string bit 9 = 1) the cell (5,8) - which per the spec holds bit 9 -
stays 0 because the code writes bit 10 = 0 there, and the second-copy cell
(8, N-6) = (8,15) - bit 9's slot - is never written and stays 0; with mask 6
(bit 14 = 1) the cell (0,8) - per the spec bit 14's slot - is never written
and stays 0, while bit 14 is written at (1,8) instead.  Bit 0 does land at
(8,0), so the first loop is unaffected. -/
theorem C4_format_write_skips_bit9 :
    (formatInformationStrings.getD 2 []).getD 9 false = true ∧
    (getCell (drawFormatInformationString (newCanvas 21) 2 21) 5 8).color = 0 ∧
    (getCell (drawFormatInformationString (newCanvas 21) 2 21) 8 15).color = 0 ∧
    (formatInformationStrings.getD 6 []).getD 14 false = true ∧
    (getCell (drawFormatInformationString (newCanvas 21) 6 21) 0 8).color = 0 ∧
    (getCell (drawFormatInformationString (newCanvas 21) 6 21) 1 8).color = 1 ∧
    (getCell (drawFormatInformationString (newCanvas 21) 2 21) 8 0).color = 1 := by
  decide

/-! Mask selection (claim C9). -/

theorem maskFold_spec (canvas : List (List Cell)) :
    ∀ (n : Nat), 1 ≤ n →
    (∀ i, i < n → penaltyOf canvas i < 9223372036854775807) →
    ∃ m, m < n ∧
      (List.range n).foldl (maskStep canvas) ([], -1, 9223372036854775807) =
        (maskCanvas canvas (masksGo m), (m : Int), penaltyOf canvas m) ∧
      (∀ i, i < n → penaltyOf canvas m ≤ penaltyOf canvas i) ∧
      (∀ i, i < n → penaltyOf canvas i = penaltyOf canvas m → m ≤ i)
  | 0, h, _ => absurd h (by omega)
  | 1, _, hlt => by
    refine ⟨0, by omega, ?_, ?_, ?_⟩
    · show maskStep canvas ([], -1, 9223372036854775807) 0 =
        (maskCanvas canvas (masksGo 0), ((0 : Nat) : Int), penaltyOf canvas 0)
      dsimp only [maskStep]
      rw [if_pos (hlt 0 (by omega))]
    · intro i hi
      have h0 : i = 0 := by omega
      rw [h0]
    · intro i _ _
      omega
  | n + 2, _, hlt => by
    obtain ⟨m, hm, heq, hmin, htie⟩ := maskFold_spec canvas (n + 1) (by omega)
      (fun i hi => hlt i (by omega))
    rw [List.range_succ, List.foldl_append, List.foldl_cons, List.foldl_nil, heq]
    by_cases hc : penaltyOf canvas (n + 1) < penaltyOf canvas m
    · refine ⟨n + 1, by omega, ?_, ?_, ?_⟩
      · dsimp only [maskStep]
        rw [if_pos hc]
      · intro i hi
        rcases Nat.lt_succ_iff_lt_or_eq.mp (by omega : i < n + 2) with h | h
        · exact le_trans (le_of_lt hc) (hmin i h)
        · rw [h]
      · intro i hi hpe
        rcases Nat.lt_succ_iff_lt_or_eq.mp (by omega : i < n + 2) with h | h
        · exact absurd (lt_of_le_of_lt (hmin i h) (hpe ▸ hc)) (lt_irrefl _)
        · omega
    · refine ⟨m, by omega, ?_, ?_, ?_⟩
      · dsimp only [maskStep]
        rw [if_neg hc]
      · intro i hi
        rcases Nat.lt_succ_iff_lt_or_eq.mp (by omega : i < n + 2) with h | h
        · exact hmin i h
        · rw [h]
          exact not_lt.mp hc
      · intro i hi hpe
        rcases Nat.lt_succ_iff_lt_or_eq.mp (by omega : i < n + 2) with h | h
        · exact htie i h hpe
        · omega

/-- Claim C9 (confirmed): whenever every mask's penalty stays below the
math.MaxInt64 sentinel (always true in practice), dataMasking returns the
canvas masked with some mask index m below 8 whose total penalty
pen1 + pen2 + pen3 + pen4 is minimal over all eight candidates, and among
the masks attaining the minimum, m is the lowest index (the loop updates
only on a strict improvement of the running minimum). -/
theorem C9_mask_selection (canvas : List (List Cell))
    (hlt : ∀ i, i < 8 → penaltyOf canvas i < 9223372036854775807) :
    ∃ m, m < 8 ∧
      dataMasking canvas = (maskCanvas canvas (masksGo m), (m : Int)) ∧
      (∀ i, i < 8 → penaltyOf canvas m ≤ penaltyOf canvas i) ∧
      (∀ i, i < 8 → penaltyOf canvas i = penaltyOf canvas m → m ≤ i) := by
  obtain ⟨m, hm, heq, hmin, htie⟩ := maskFold_spec canvas 8 (by omega) hlt
  refine ⟨m, hm, ?_, hmin, htie⟩
  simp only [dataMasking]
  rw [heq]

/-- Witness for C9 at the fresh 5 × 5 canvas: every penalty is finite and the
selection property holds there. -/
theorem C9_mask_selection_witness :
    (∀ i, i < 8 → penaltyOf (newCanvas 5) i < 9223372036854775807) ∧
    (∃ m, m < 8 ∧
      dataMasking (newCanvas 5) =
        (maskCanvas (newCanvas 5) (masksGo m), (m : Int)) ∧
      (∀ i, i < 8 → penaltyOf (newCanvas 5) m ≤ penaltyOf (newCanvas 5) i) ∧
      (∀ i, i < 8 →
        penaltyOf (newCanvas 5) i = penaltyOf (newCanvas 5) m → m ≤ i)) :=
  ⟨by decide, C9_mask_selection (newCanvas 5) (by decide)⟩

/-- Witness for C10: the input "1" (numeric, version 1), where 208 data
cells match the 208-bit interleaved stream. -/
theorem C10_data_cells_witness :
    ((['1'] : List Char) ≠ [] ∧ (∀ c ∈ (['1'] : List Char), c.toNat < 128) ∧
      versionOf (mode ['1']) (['1'] : List Char).length ≤ 12) ∧
    countData (buildBaseCanvas (versionOf (mode ['1']) (['1'] : List Char).length)) =
      (interleave (encodingOf ['1'])
        (versionOf (mode ['1']) (['1'] : List Char).length)).length :=
  ⟨⟨by decide, by decide, by decide⟩,
    (C10_data_cells ['1'] (by decide) (by decide) (by decide)).1⟩

end QRGo
